import Mathlib

/-!
# Focus-Mode-Scheduler: the lottery daemon (`focusd.c`) and the ticket table of `focusctl.c`

A shallow embedding of the ticket table, the weighted draw `pick_winner`, the
`fscanf`/`fgets` table loader, the table writer, `cmd_add` and one round of the
daemon loop, followed by the properties proved about them.

Conventions of the embedding:

* `int` and `pid_t` are 32-bit, `long` is 64-bit (LP64 Linux, the platform of
  cgroup v2).  Values are mathematical integers; every place where C stores
  the result of an arithmetic operation is wrapped with `to_int` / `to_long`.
* A file is the list of its characters; reading advances by returning the
  rest of the list.
* Loops whose number of iterations is not a structural argument carry a fuel
  counter; running out of fuel is a separate outcome that is proved not to
  happen.
-/

namespace FocusSched

/-! ## Machine integers -/

/-- Two's-complement wrap of an integer to a signed word of `w` bits. -/
def wrap (w : Nat) (x : Int) : Int :=
  (x + 2 ^ (w - 1)) % 2 ^ w - 2 ^ (w - 1)

/-- Value stored in a 32-bit `int`. -/
def to_int (x : Int) : Int := wrap 32 x

/-- Value stored in a 64-bit `long`. -/
def to_long (x : Int) : Int := wrap 64 x

/-- Value stored in a 32-bit unsigned `useconds_t`. -/
def to_useconds (x : Int) : Int := x % 2 ^ 32

def INT_MAX : Int := 2147483647

def INT_MIN : Int := -2147483648

/-- The value fits a C `int`. -/
def int_range (x : Int) : Prop := INT_MIN ≤ x ∧ x ≤ INT_MAX

instance (x : Int) : Decidable (int_range x) := by
  unfold int_range; infer_instance

/-! ## Data model -/

/-- The record `struct ticket_entry { pid_t pid; int tickets; }`. -/
structure ticket_entry where
  pid : Int
  tickets : Int
deriving DecidableEq

/-- An array of `struct ticket_entry` as C can hold it: both fields are `int`
values and the element count fits the `int count` that goes with it. -/
def table_ok (arr : List ticket_entry) : Prop :=
  (arr.length : Int) ≤ INT_MAX ∧ ∀ e ∈ arr, int_range e.pid ∧ int_range e.tickets

instance (arr : List ticket_entry) : Decidable (table_ok arr) := by
  unfold table_ok; infer_instance

/-- A row as the ticket file is meant to hold it: both fields positive `int`
values. -/
def valid_entry (e : ticket_entry) : Prop :=
  0 < e.pid ∧ e.pid ≤ INT_MAX ∧ 0 < e.tickets ∧ e.tickets ≤ INT_MAX

instance (e : ticket_entry) : Decidable (valid_entry e) := by
  unfold valid_entry; infer_instance

/-! ## `pick_winner` (focusd.c) -/

/-- First loop of `pick_winner`: `total += arr[i].tickets` for the entries with
`tickets > 0`, the second argument being the running `long total`. -/
def sum_tickets : List ticket_entry → Int → Int
  | [], total => total
  | e :: rest, total =>
    if e.tickets > 0 then sum_tickets rest (to_long (total + e.tickets))
    else sum_tickets rest total

/-- Second loop of `pick_winner` from index `i` on, with draw `r` and running
sum `acc`.  `some (i, arr[i].pid)` when the loop executes `return arr[i].pid`
at index `i`, `none` when the loop runs to its end. -/
def walk : List ticket_entry → Int → Int → Nat → Option (Nat × Int)
  | [], _, _, _ => none
  | e :: rest, r, acc, i =>
    if e.tickets ≤ 0 then walk rest r acc (i + 1)
    else
      let acc2 := to_long (acc + e.tickets)
      if r ≤ acc2 then some (i, e.pid) else walk rest r acc2 (i + 1)

/-- The draw `long r = (rand() % total) + 1` for the value `v` returned by
`rand()`; C's `%` truncates towards zero. -/
def draw (v total : Int) : Int := to_long (to_long (Int.tmod v total) + 1)

/-- The function `pick_winner(arr, count)` with `count = arr.length`, `v` being
the value that the call of `rand()` returns. -/
def pick_winner (arr : List ticket_entry) (v : Int) : Int :=
  if (arr.length : Int) ≤ 0 then -1
  else
    let total := sum_tickets arr 0
    if total ≤ 0 then -1
    else
      match walk arr (draw v total) 0 0 with
      | some (_, pid) => pid
      | none =>
        match arr.getLast? with
        | some e => e.pid
        | none => -1

/-- Sum of the positive ticket counts, without machine arithmetic. -/
def pos_sum (arr : List ticket_entry) : Int :=
  (arr.map (fun e => max e.tickets 0)).sum

/-! ## The C library: `fscanf("%d %d")`, `fgets`, `fprintf("%d %d\n")` -/

/-- The function `isspace` of the C locale. -/
def isspace (c : Char) : Bool :=
  c == ' ' || c == '\t' || c == '\n' || c == '\x0b' || c == '\x0c' || c == '\r'

def isdigit (c : Char) : Bool := decide (48 ≤ c.toNat) && decide (c.toNat ≤ 57)

/-- Value of a run of decimal digits, the second argument being the value of
the digits already read. -/
def digits_val : List Char → Nat → Nat
  | [], a => a
  | c :: t, a => digits_val t (a * 10 + (c.toNat - 48))

def LONG_MAX : Int := 9223372036854775807

def LONG_MIN : Int := -9223372036854775808

/-- The function `strtol` on an optional sign and a run of digits: the value,
clamped to the range of `long`. -/
def strtol (neg : Bool) (ds : List Char) : Int :=
  if neg then max (-(digits_val ds 0 : Int)) LONG_MIN else min (digits_val ds 0 : Int) LONG_MAX

/-- Outcome of one `%d` directive. -/
inductive Conv where
  | input_failure
  | matching_failure (rest : List Char)
  | converted (value : Int) (rest : List Char)

/-- One `%d` directive of `fscanf`: skip white space (newlines included), read
an optional sign and the longest run of digits, leave the first character
after them in the stream.  End of file before any character of the item is an
input failure; a sign is consumed even when no digit follows it.  The value
is the `strtol` value stored into an `int`. -/
def scan_d (s : List Char) : Conv :=
  match s.dropWhile isspace with
  | [] => .input_failure
  | c :: t =>
    let body := if c == '-' || c == '+' then t else c :: t
    if (body.takeWhile isdigit).isEmpty then .matching_failure body
    else .converted (to_int (strtol (c == '-') (body.takeWhile isdigit))) (body.dropWhile isdigit)

def EOF : Int := -1

/-- The call `fscanf(f, "%d %d", &pid_i, &tickets)` on the rest `s` of the
file: the return value `n`, the two variables (which the caller sets to 0
before the call and which keep that value when not assigned) and the rest of
the file after the call.  The blank of the format and the second `%d` skip
white space once between them. -/
def fscanf_dd (s : List Char) : Int × Int × Int × List Char :=
  match scan_d s with
  | .input_failure => (EOF, 0, 0, [])
  | .matching_failure rest => (0, 0, 0, rest)
  | .converted a rest1 =>
    match scan_d rest1 with
    | .input_failure => (1, a, 0, [])
    | .matching_failure rest => (1, a, 0, rest)
    | .converted b rest2 => (2, a, b, rest2)

/-- Characters that `fgets` takes when it may still store `k` of them: up to
and including the first newline.  The result is the rest of the file. -/
def fgets_rest : Nat → List Char → List Char
  | 0, s => s
  | _ + 1, [] => []
  | k + 1, c :: t => if c == '\n' then t else fgets_rest k t

/-- The call `fgets(buf, size, f)`: `none` for `NULL` (end of file with no
character read), otherwise the rest of the file after the call. -/
def fgets (size : Nat) (s : List Char) : Option (List Char) :=
  match s with
  | [] => none
  | _ :: _ => some (fgets_rest (size - 1) s)

def digit_char (d : Nat) : Char := Char.ofNat (48 + d)

/-- Decimal digits of `n` put in front of `acc`; the first argument bounds the
number of digits. -/
def print_nat_aux : Nat → Nat → List Char → List Char
  | 0, _, acc => acc
  | fuel + 1, n, acc =>
    if n < 10 then digit_char n :: acc
    else print_nat_aux fuel (n / 10) (digit_char (n % 10) :: acc)

def print_nat (n : Nat) : List Char := print_nat_aux (n + 1) n []

/-- What `%d` of `fprintf` writes for an `int`. -/
def print_int (x : Int) : List Char :=
  if x < 0 then '-' :: print_nat x.natAbs else print_nat x.toNat

/-! ## The host: state directory, ticket file, allocator, cgroup files -/

/-- The file `/var/lib/focusctl/procs.txt` as `fopen(PROCS_FILE, "r")` sees it:
absent (`ENOENT`), failing to open for another reason, or its characters. -/
inductive ProcsFile where
  | missing
  | unreadable
  | content (s : List Char)
deriving DecidableEq

/-- The environment of a call: what the system calls that the code makes
answer. -/
structure Host where
  /-- Whether `ensure_dir(STATE_DIR)` succeeds. -/
  state_dir_ok : Bool
  procs : ProcsFile
  /-- Whether `fopen(PROCS_FILE, "w")` succeeds; the `fclose` of the file
  written is taken to succeed. -/
  writable : Bool
  /-- Whether `malloc` / `realloc` of an array of that many entries succeeds. -/
  alloc : Nat → Bool
  /-- Whether `write_file` on the `cgroup.procs` of that group succeeds for
  that pid (it fails for a process that has exited). -/
  cgroup_write_ok : String → Int → Bool

/-- Outcome of a scanning loop. -/
inductive LoopResult where
  | out_of_fuel
  | failed
  | done (arr : List ticket_entry)
deriving DecidableEq

/-! ## The loader of the daemon (focusd.c) -/

namespace focusd

/-- The `while (1)` loop of `load_ticket_entries` on the rest `s` of the file,
with the current `capacity` and the entries `arr[0..count)` stored so far.
`failed` is the `return -1` after a failed `realloc`. -/
def scan_loop (alloc : Nat → Bool) : Nat → List Char → Nat → List ticket_entry → LoopResult
  | 0, _, _, _ => .out_of_fuel
  | fuel + 1, s, capacity, arr =>
    match fscanf_dd s with
    | (n, pid_i, tickets, rest) =>
      if n = EOF then .done arr
      else if n ≠ 2 then
        match fgets 256 rest with
        | none => .done arr
        | some rest2 => scan_loop alloc fuel rest2 capacity arr
      else if tickets ≤ 0 then scan_loop alloc fuel rest capacity arr
      else if pid_i ≤ 0 then scan_loop alloc fuel rest capacity arr
      else if arr.length ≥ capacity then
        if alloc (capacity * 2) then
          scan_loop alloc fuel rest (capacity * 2) (arr ++ [⟨pid_i, tickets⟩])
        else .failed
      else scan_loop alloc fuel rest capacity (arr ++ [⟨pid_i, tickets⟩])

/-- The function `load_ticket_entries(&arr, &count)` of the daemon: `none` for
the return value `-1`, `some arr` for the return value `0` with the loaded
array.  Every iteration of the loop that does not leave it consumes a
character, so `s.length + 1` iterations are enough. -/
def load_ticket_entries (h : Host) : Option (List ticket_entry) :=
  if !h.state_dir_ok then none
  else
    match h.procs with
    | .missing => some []
    | .unreadable => none
    | .content s =>
      if !h.alloc 16 then none
      else
        match scan_loop h.alloc (s.length + 1) s 16 [] with
        | .done arr => some arr
        | .failed => none
        | .out_of_fuel => none

end focusd

/-! ## The ticket table of focusctl.c: loader, writer, `cmd_add` -/

namespace focusctl

/-- The loop `while (count < max_entries)` of `load_ticket_entries` on the rest
`s` of the file, with the entries `arr[0..count)` stored so far. -/
def scan_loop : Nat → List Char → Nat → List ticket_entry → LoopResult
  | 0, _, _, _ => .out_of_fuel
  | fuel + 1, s, max_entries, arr =>
    if ¬ (arr.length < max_entries) then .done arr
    else
      match fscanf_dd s with
      | (n, pid_i, tickets, rest) =>
        if n = EOF then .done arr
        else if n ≠ 2 then
          match fgets 256 rest with
          | none => .done arr
          | some rest2 => scan_loop fuel rest2 max_entries arr
        else if tickets ≤ 0 then scan_loop fuel rest max_entries arr
        else scan_loop fuel rest max_entries (arr ++ [⟨pid_i, tickets⟩])

/-- The function `load_ticket_entries(arr, max_entries, &count)` of focusctl:
`none` for the return value `-1`, `some arr` for `0` with the loaded array. -/
def load_ticket_entries (h : Host) (max_entries : Nat) : Option (List ticket_entry) :=
  match h.procs with
  | .missing => some []
  | .unreadable => none
  | .content s =>
    match scan_loop (s.length + 1) s max_entries [] with
    | .done arr => some arr
    | .failed => none
    | .out_of_fuel => none

/-- The loop of `save_ticket_entries`: the characters that the calls
`fprintf(f, "%d %d\n", arr[i].pid, arr[i].tickets)` write. -/
def write_rows : List ticket_entry → List Char
  | [] => []
  | e :: rest =>
    if e.tickets ≤ 0 ∨ e.pid ≤ 0 then write_rows rest
    else print_int e.pid ++ ' ' :: (print_int e.tickets ++ '\n' :: write_rows rest)

/-- The characters that one call `fprintf(f, "%d %d\n", pid, tickets)` writes. -/
def print_row (e : ticket_entry) : List Char :=
  print_int e.pid ++ ' ' :: (print_int e.tickets ++ ['\n'])

/-- The entries for which the loop of `save_ticket_entries` reaches its
`fprintf`, in order: those that the `continue` does not skip. -/
def written_entries : List ticket_entry → List ticket_entry
  | [] => []
  | e :: rest =>
    if e.tickets ≤ 0 ∨ e.pid ≤ 0 then written_entries rest
    else e :: written_entries rest

/-- The function `save_ticket_entries(arr, count)`: the return value and the
host after the call.  A call that fails before the file is opened for
writing leaves the file as it was. -/
def save_ticket_entries (h : Host) (arr : List ticket_entry) : Int × Host :=
  if !h.state_dir_ok then (-1, h)
  else if !h.writable then (-1, h)
  else (0, { h with procs := .content (write_rows arr) })

/-- The search loop of `cmd_add`: the array after `entries[i].tickets = tickets`
at the first `i` with `entries[i].pid == pid`, or `none` when `found` stays 0. -/
def set_tickets : List ticket_entry → Int → Int → Option (List ticket_entry)
  | [], _, _ => none
  | e :: rest, pid, tickets =>
    if e.pid = pid then some (⟨e.pid, tickets⟩ :: rest)
    else (set_tickets rest pid tickets).map (fun l => e :: l)

/-- The function `cmd_add(pid, tickets)`: the return value and the host after
the call. -/
def cmd_add (h : Host) (pid tickets : Int) : Int × Host :=
  if tickets ≤ 0 then (-1, h)
  else
    match load_ticket_entries h 1024 with
    | none => (-1, h)
    | some entries =>
      match set_tickets entries pid tickets with
      | some entries2 =>
        let r := save_ticket_entries h entries2
        if r.1 < 0 then (-1, r.2) else (0, r.2)
      | none =>
        if entries.length ≥ 1024 then (-1, h)
        else
          let r := save_ticket_entries h (entries ++ [⟨pid, tickets⟩])
          if r.1 < 0 then (-1, r.2) else (0, r.2)

/-- The table that the specification describes after adding `(pid, tickets)`
to `rows`: the row of `pid` replaced where it stands when there is one,
otherwise a new row at the end; every other row as it was. -/
def spec_add (rows : List ticket_entry) (pid tickets : Int) : List ticket_entry :=
  if pid ∈ rows.map (fun e => e.pid) then
    rows.map (fun e => if e.pid = pid then ⟨pid, tickets⟩ else e)
  else rows ++ [⟨pid, tickets⟩]

end focusctl

/-! ## One round of the daemon loop (focusd.c, `main`) -/

namespace focusd

def FOCUS_NAME : String := "focus"

def BG_NAME : String := "background"

/-- The calls that a round makes on the outside world, in order. -/
inductive Event where
  | move_pid (group : String) (pid : Int) (rc : Int)
  | usleep (usec : Int)
deriving DecidableEq

/-- The function `move_pid(group, pid)`: its return value. -/
def move_pid (h : Host) (group : String) (pid : Int) : Int :=
  if h.cgroup_write_ok group pid then 0 else -1

/-- The loop over the table in `main`, from the entry at the head of the list
on; the return value of `move_pid` is recorded and not looked at. -/
def move_all (h : Host) (winner : Int) : List ticket_entry → List Event
  | [] => []
  | e :: rest =>
    (if e.pid = winner then Event.move_pid FOCUS_NAME e.pid (move_pid h FOCUS_NAME e.pid)
     else Event.move_pid BG_NAME e.pid (move_pid h BG_NAME e.pid)) :: move_all h winner rest

/-- The argument of `usleep(timeslice_ms * 1000)`: the product is computed in
`int` and converted to the unsigned 32-bit `useconds_t`. -/
def usleep_arg (timeslice_ms : Int) : Int := to_useconds (to_int (timeslice_ms * 1000))

/-- The check of `main` on `timeslice_ms = atoi(argv[1])`: the daemon goes on
to its loop only when the value is positive. -/
def timeslice_accepted (timeslice_ms : Int) : Bool := !decide (timeslice_ms ≤ 0)

/-- One iteration of the `for (;;)` loop of `main`, `v` being the value that
`rand()` returns if `pick_winner` calls it. -/
def daemon_round (h : Host) (timeslice_ms : Int) (v : Int) : List Event :=
  match load_ticket_entries h with
  | none => [Event.usleep (usleep_arg timeslice_ms)]
  | some arr =>
    if (arr.length : Int) ≤ 0 then [Event.usleep (usleep_arg timeslice_ms)]
    else
      let winner := pick_winner arr v
      (if winner > 0 then move_all h winner arr else []) ++ [Event.usleep (usleep_arg timeslice_ms)]

/-- The `move_pid` calls of a trace: group and pid of each, in order. -/
def moves : List Event → List (String × Int)
  | [] => []
  | Event.move_pid g p _ :: rest => (g, p) :: moves rest
  | Event.usleep _ :: rest => moves rest

/-- The `usleep` calls of a trace: the argument of each, in order. -/
def sleeps : List Event → List Int
  | [] => []
  | Event.move_pid _ _ _ :: rest => sleeps rest
  | Event.usleep u :: rest => u :: sleeps rest

end focusd

/-- A host on which every system call succeeds and whose ticket file holds the
characters `s`. -/
def healthy_host (s : List Char) : Host :=
  { state_dir_ok := true, procs := .content s, writable := true,
    alloc := fun _ => true, cgroup_write_ok := fun _ _ => true }

/-! ## Properties -/

theorem to_long_eq (x : Int) (h1 : -9223372036854775808 ≤ x) (h2 : x < 9223372036854775808) :
    to_long x = x := by
  unfold to_long wrap
  norm_num
  omega

theorem pos_sum_nil : pos_sum [] = 0 := rfl

theorem pos_sum_cons (e : ticket_entry) (rest : List ticket_entry) :
    pos_sum (e :: rest) = max e.tickets 0 + pos_sum rest := by
  simp [pos_sum]

theorem pos_sum_nonneg (arr : List ticket_entry) : 0 ≤ pos_sum arr := by
  induction arr with
  | nil => simp [pos_sum_nil]
  | cons e rest ih =>
    rw [pos_sum_cons]
    have : 0 ≤ max e.tickets 0 := le_max_right _ _
    omega

theorem pos_sum_le (arr : List ticket_entry) (h : ∀ e ∈ arr, int_range e.tickets) :
    pos_sum arr ≤ (arr.length : Int) * INT_MAX := by
  induction arr with
  | nil => simp [pos_sum_nil]
  | cons e rest ih =>
    rw [pos_sum_cons]
    have h1 := (h e (List.mem_cons_self _ _)).2
    have h2 := ih (fun x hx => h x (List.mem_cons_of_mem _ hx))
    have h3 : max e.tickets 0 ≤ INT_MAX := max_le h1 (by decide)
    simp only [List.length_cons, Nat.cast_add, Nat.cast_one]
    unfold INT_MAX at *
    linarith

/-- A table that C can hold has a sum of positive tickets far below `LONG_MAX`. -/
theorem pos_sum_lt_of_table_ok (arr : List ticket_entry) (h : table_ok arr) :
    pos_sum arr < 9223372036854775808 := by
  have h1 := pos_sum_le arr (fun e he => (h.2 e he).2)
  have h2 := h.1
  unfold INT_MAX at *
  nlinarith

theorem sum_tickets_eq (arr : List ticket_entry) (total : Int) (h0 : 0 ≤ total)
    (h : total + pos_sum arr < 9223372036854775808) :
    sum_tickets arr total = total + pos_sum arr := by
  induction arr generalizing total with
  | nil => simp [sum_tickets, pos_sum_nil]
  | cons e rest ih =>
    rw [pos_sum_cons] at h ⊢
    have hr := pos_sum_nonneg rest
    unfold sum_tickets
    by_cases ht : e.tickets > 0
    · have hm : max e.tickets 0 = e.tickets := max_eq_left (le_of_lt ht)
      rw [hm] at h ⊢
      rw [if_pos ht, to_long_eq _ (by omega) (by omega), ih _ (by omega) (by omega)]
      omega
    · have hm : max e.tickets 0 = 0 := max_eq_right (by omega)
      rw [hm] at h ⊢
      rw [if_neg ht, ih _ h0 (by omega)]
      omega

theorem sum_tickets_zero (arr : List ticket_entry) (h : table_ok arr) :
    sum_tickets arr 0 = pos_sum arr := by
  rw [sum_tickets_eq arr 0 (le_refl _) (by have := pos_sum_lt_of_table_ok arr h; omega)]
  omega


theorem walk_index_ge (arr : List ticket_entry) (r acc : Int) (k j : Nat) (p : Int)
    (h : walk arr r acc k = some (j, p)) : k ≤ j := by
  induction arr generalizing acc k with
  | nil => simp [walk] at h
  | cons e rest ih =>
    unfold walk at h
    by_cases ht : e.tickets ≤ 0
    · rw [if_pos ht] at h
      have := ih _ _ h
      omega
    · rw [if_neg ht] at h
      simp only at h
      by_cases hr : r ≤ to_long (acc + e.tickets)
      · rw [if_pos hr] at h
        simp only [Option.some.injEq, Prod.mk.injEq] at h
        omega
      · rw [if_neg hr] at h
        have := ih _ _ h
        omega

/-- The walk stops at index `i` exactly when the draw lies above the sum of
the positive tickets before `i` and at most that sum plus the tickets of `i`. -/
theorem walk_spec (arr : List ticket_entry) (r acc : Int) (k : Nat)
    (h0 : 0 ≤ acc) (hlt : acc < r) (hb : acc + pos_sum arr < 9223372036854775808)
    (i : Nat) (p : Int) :
    walk arr r acc k = some (k + i, p) ↔
      ∃ h : i < arr.length, p = arr[i].pid ∧ 0 < arr[i].tickets ∧
        acc + pos_sum (arr.take i) < r ∧
        r ≤ acc + pos_sum (arr.take i) + arr[i].tickets := by
  induction arr generalizing acc k i with
  | nil => simp [walk]
  | cons e rest ih =>
    rw [pos_sum_cons] at hb
    have hrest := pos_sum_nonneg rest
    unfold walk
    by_cases ht : e.tickets ≤ 0
    · have hm : max e.tickets 0 = 0 := max_eq_right ht
      rw [hm] at hb
      rw [if_pos ht]
      cases i with
      | zero =>
        constructor
        · intro h
          have := walk_index_ge _ _ _ _ _ _ h
          omega
        · rintro ⟨_, _, h2, _⟩
          simp only [List.getElem_cons_zero] at h2
          omega
      | succ i =>
        have e1 : k + (i + 1) = (k + 1) + i := by omega
        rw [e1, ih acc (k + 1) h0 hlt (by omega) i]
        simp only [List.length_cons, List.getElem_cons_succ, List.take_succ_cons, pos_sum_cons, hm,
          Nat.add_lt_add_iff_right, zero_add]
    · have hm : max e.tickets 0 = e.tickets := max_eq_left (by omega)
      rw [hm] at hb
      rw [if_neg ht]
      simp only
      rw [to_long_eq _ (by omega) (by omega)]
      by_cases hr : r ≤ acc + e.tickets
      · rw [if_pos hr]
        cases i with
        | zero =>
          simp only [Nat.add_zero, Option.some.injEq, Prod.mk.injEq, true_and, List.length_cons,
            List.getElem_cons_zero, List.take_zero, pos_sum_nil]
          constructor
          · intro h
            exact ⟨by omega, h.symm, by omega, by omega, by omega⟩
          · rintro ⟨_, h, _⟩
            exact h.symm
        | succ i =>
          constructor
          · intro h
            simp only [Option.some.injEq, Prod.mk.injEq] at h
            omega
          · rintro ⟨_, _, _, h3, _⟩
            simp only [List.take_succ_cons, pos_sum_cons, hm] at h3
            have := pos_sum_nonneg (List.take i rest)
            omega
      · rw [if_neg hr]
        cases i with
        | zero =>
          constructor
          · intro h
            have := walk_index_ge _ _ _ _ _ _ h
            omega
          · rintro ⟨_, _, _, _, h4⟩
            simp only [List.getElem_cons_zero, List.take_zero, pos_sum_nil] at h4
            omega
        | succ i =>
          have e1 : k + (i + 1) = (k + 1) + i := by omega
          rw [e1, ih (acc + e.tickets) (k + 1) (by omega) (by omega) (by omega) i]
          simp only [List.length_cons, List.getElem_cons_succ, List.take_succ_cons, pos_sum_cons, hm,
            Nat.add_lt_add_iff_right, add_assoc]


theorem pos_sum_append (a b : List ticket_entry) : pos_sum (a ++ b) = pos_sum a + pos_sum b := by
  simp [pos_sum]

theorem pos_sum_take_le (arr : List ticket_entry) (n : Nat) :
    pos_sum (arr.take n) ≤ pos_sum arr := by
  have h := pos_sum_append (arr.take n) (arr.drop n)
  rw [List.take_append_drop] at h
  have := pos_sum_nonneg (arr.drop n)
  omega

theorem pos_sum_take_succ (arr : List ticket_entry) (i : Nat) (h : i < arr.length) :
    pos_sum (arr.take (i + 1)) = pos_sum (arr.take i) + max arr[i].tickets 0 := by
  induction arr generalizing i with
  | nil => simp at h
  | cons e rest ih =>
    cases i with
    | zero => simp [pos_sum]
    | succ i =>
      simp only [List.length_cons, Nat.add_lt_add_iff_right] at h
      simp only [List.take_succ_cons, pos_sum_cons, List.getElem_cons_succ, ih i h]
      omega

/-- Whatever the draw, an index at which the walk stops holds positive
tickets, and the pid returned is the pid at that index. -/
theorem walk_some_mem (arr : List ticket_entry) (r acc : Int) (k j : Nat) (p : Int)
    (h : walk arr r acc k = some (j, p)) :
    ∃ i, ∃ hi : i < arr.length, j = k + i ∧ p = arr[i].pid ∧ 0 < arr[i].tickets := by
  induction arr generalizing acc k with
  | nil => simp [walk] at h
  | cons e rest ih =>
    unfold walk at h
    by_cases ht : e.tickets ≤ 0
    · rw [if_pos ht] at h
      obtain ⟨i, hi, h1, h2, h3⟩ := ih _ _ h
      exact ⟨i + 1, by simpa using hi, by omega, by simpa using h2, by simpa using h3⟩
    · rw [if_neg ht] at h
      simp only at h
      by_cases hr : r ≤ to_long (acc + e.tickets)
      · rw [if_pos hr] at h
        simp only [Option.some.injEq, Prod.mk.injEq] at h
        exact ⟨0, by simp, by omega, by simpa using h.2.symm, by simpa using ht⟩
      · rw [if_neg hr] at h
        obtain ⟨i, hi, h1, h2, h3⟩ := ih _ _ h
        exact ⟨i + 1, by simpa using hi, by omega, by simpa using h2, by simpa using h3⟩

/-- A draw within the total is always matched inside the loop. -/
theorem walk_stops (arr : List ticket_entry) (r acc : Int) (k : Nat)
    (h0 : 0 ≤ acc) (hlt : acc < r) (hr : r ≤ acc + pos_sum arr)
    (hb : acc + pos_sum arr < 9223372036854775808) :
    ∃ j p, walk arr r acc k = some (j, p) := by
  induction arr generalizing acc k with
  | nil =>
    rw [pos_sum_nil] at hr
    omega
  | cons e rest ih =>
    rw [pos_sum_cons] at hr hb
    have hrest := pos_sum_nonneg rest
    unfold walk
    by_cases ht : e.tickets ≤ 0
    · have hm : max e.tickets 0 = 0 := max_eq_right ht
      rw [hm] at hr hb
      rw [if_pos ht]
      exact ih acc (k + 1) h0 hlt (by omega) (by omega)
    · have hm : max e.tickets 0 = e.tickets := max_eq_left (by omega)
      rw [hm] at hr hb
      rw [if_neg ht]
      simp only
      rw [to_long_eq _ (by omega) (by omega)]
      by_cases hc : r ≤ acc + e.tickets
      · rw [if_pos hc]
        exact ⟨k, e.pid, rfl⟩
      · rw [if_neg hc]
        exact ih (acc + e.tickets) (k + 1) (by omega) (by omega) (by omega) (by omega)

/-- With a positive total and a non-negative `rand()` value the draw lies in
`1..total`. -/
theorem draw_range (v total : Int) (hv : 0 ≤ v) (ht : 0 < total)
    (hb : total < 9223372036854775808) :
    1 ≤ draw v total ∧ draw v total ≤ total := by
  unfold draw
  rw [Int.tmod_eq_emod hv (le_of_lt ht)]
  have h1 : 0 ≤ v % total := Int.emod_nonneg _ (by omega)
  have h2 : v % total < total := Int.emod_lt_of_pos _ ht
  rw [to_long_eq (v % total) (by omega) (by omega), to_long_eq _ (by omega) (by omega)]
  omega

theorem sum_tickets_nonpos (arr : List ticket_entry) (total : Int)
    (h : ∀ e ∈ arr, e.tickets ≤ 0) : sum_tickets arr total = total := by
  induction arr generalizing total with
  | nil => rfl
  | cons e rest ih =>
    unfold sum_tickets
    have h1 := h e (List.mem_cons_self _ _)
    rw [if_neg (by omega)]
    exact ih total (fun x hx => h x (List.mem_cons_of_mem _ hx))

theorem map_fst_eq_some (o : Option (Nat × Int)) (i : Nat) :
    o.map Prod.fst = some i ↔ ∃ p, o = some (i, p) := by
  cases o with
  | none => simp
  | some x =>
    obtain ⟨j, p⟩ := x
    simp

/-- Claim C1.  For a table with positive total `T`, the draws `r` in `1..T` at
which the walk of `pick_winner` stops at index `i` number exactly `tickets_i`
when `tickets_i > 0` and none otherwise; and at no draw whatsoever does the
walk stop at an entry with non-positive tickets. -/
theorem pick_winner_draw_count (arr : List ticket_entry) (hok : table_ok arr)
    (hT : 0 < sum_tickets arr 0) (i : Nat) (hi : i < arr.length) :
    (((Finset.Icc 1 (sum_tickets arr 0)).filter
        (fun r => (walk arr r 0 0).map Prod.fst = some i)).card : Int)
      = (if 0 < arr[i].tickets then arr[i].tickets else 0)
    ∧ (arr[i].tickets ≤ 0 → ∀ r : Int, (walk arr r 0 0).map Prod.fst ≠ some i) := by
  have hsum := sum_tickets_zero arr hok
  have hlt := pos_sum_lt_of_table_ok arr hok
  have hnever : arr[i].tickets ≤ 0 → ∀ r : Int, (walk arr r 0 0).map Prod.fst ≠ some i := by
    intro hle r hw
    rw [map_fst_eq_some] at hw
    obtain ⟨p, hw⟩ := hw
    obtain ⟨i2, hi2, h1, _, h3⟩ := walk_some_mem _ _ _ _ _ _ hw
    have : i2 = i := by omega
    subst this
    omega
  refine ⟨?_, hnever⟩
  by_cases hpos : 0 < arr[i].tickets
  · rw [if_pos hpos]
    have hset : (Finset.Icc 1 (sum_tickets arr 0)).filter
        (fun r => (walk arr r 0 0).map Prod.fst = some i)
        = Finset.Ioc (pos_sum (arr.take i)) (pos_sum (arr.take i) + arr[i].tickets) := by
      ext r
      simp only [Finset.mem_filter, Finset.mem_Icc, Finset.mem_Ioc]
      have hP := pos_sum_nonneg (arr.take i)
      have hP1 := pos_sum_take_succ arr i hi
      rw [max_eq_left (le_of_lt hpos)] at hP1
      have hP2 := pos_sum_take_le arr (i + 1)
      constructor
      · rintro ⟨⟨h1, _⟩, hw⟩
        rw [map_fst_eq_some] at hw
        obtain ⟨p, hw⟩ := hw
        have hw2 : walk arr r 0 0 = some (0 + i, p) := by simpa using hw
        rw [walk_spec arr r 0 0 (le_refl _) (by omega) (by omega) i p] at hw2
        obtain ⟨_, _, _, h3, h4⟩ := hw2
        constructor <;> omega
      · rintro ⟨h1, h2⟩
        refine ⟨⟨by omega, by omega⟩, ?_⟩
        have hw : walk arr r 0 0 = some (0 + i, arr[i].pid) := by
          rw [walk_spec arr r 0 0 (le_refl _) (by omega) (by omega) i]
          exact ⟨hi, rfl, hpos, by omega, by omega⟩
        rw [hw]
        simp
    rw [hset, Int.card_Ioc]
    have : pos_sum (arr.take i) + arr[i].tickets - pos_sum (arr.take i) = arr[i].tickets := by omega
    rw [this]
    exact Int.toNat_of_nonneg (le_of_lt hpos)
  · rw [if_neg hpos]
    have hset : (Finset.Icc 1 (sum_tickets arr 0)).filter
        (fun r => (walk arr r 0 0).map Prod.fst = some i) = ∅ := by
      ext r
      simp only [Finset.mem_filter, Finset.not_mem_empty, iff_false, not_and]
      intro _
      exact hnever (by omega) r
    rw [hset]
    simp


/-- Witness of C1: in the table `[(100,10),(200,30)]` (total 40) exactly 30 of
the 40 draws stop at index 1. -/
theorem pick_winner_draw_count_witness :
    table_ok [⟨100, 10⟩, ⟨200, 30⟩] ∧ 0 < sum_tickets [⟨100, 10⟩, ⟨200, 30⟩] 0 ∧
    (((Finset.Icc 1 (sum_tickets [⟨100, 10⟩, ⟨200, 30⟩] 0)).filter
        (fun r => (walk [⟨100, 10⟩, ⟨200, 30⟩] r 0 0).map Prod.fst = some 1)).card : Int) = 30 :=
  ⟨by decide, by decide,
    (pick_winner_draw_count [⟨100, 10⟩, ⟨200, 30⟩] (by decide) (by decide) 1 (by decide)).1⟩

theorem pick_winner_eq_walk (arr : List ticket_entry) (v : Int) (hok : table_ok arr)
    (hT : 0 < sum_tickets arr 0) (hv : 0 ≤ v) :
    ∃ j p, walk arr (draw v (sum_tickets arr 0)) 0 0 = some (j, p) ∧ pick_winner arr v = p := by
  have hsum := sum_tickets_zero arr hok
  have hlt := pos_sum_lt_of_table_ok arr hok
  have hd := draw_range v (sum_tickets arr 0) hv hT (by omega)
  obtain ⟨j, p, hw⟩ := walk_stops arr (draw v (sum_tickets arr 0)) 0 0 (le_refl _)
    (by omega) (by omega) (by omega)
  refine ⟨j, p, hw, ?_⟩
  have hne : ¬ ((arr.length : Int) ≤ 0) := by
    intro h
    have h0 : arr.length = 0 := by omega
    rw [List.length_eq_zero] at h0
    subst h0
    simp [sum_tickets] at hT
  unfold pick_winner
  rw [if_neg hne]
  simp only
  rw [if_neg (by omega), hw]

/-- Claim C2.  For every table of positive pids (the pids of the data model,
and of every table that the loader of the daemon returns) whose total of
positive tickets is `> 0`, hence non-empty, and for every non-negative value
of `rand()`, `pick_winner` returns the pid of some entry of the table, one
that holds positive tickets: it never returns `-1` and never an id that is
absent from the table. -/
theorem pick_winner_returns_entry (arr : List ticket_entry) (v : Int) (hok : table_ok arr)
    (hpid : ∀ e ∈ arr, 0 < e.pid) (hT : 0 < sum_tickets arr 0) (hv : 0 ≤ v) :
    arr ≠ [] ∧
    (∃ e ∈ arr, 0 < e.tickets ∧ pick_winner arr v = e.pid) ∧
    pick_winner arr v ≠ -1 := by
  obtain ⟨j, p, hw, hp⟩ := pick_winner_eq_walk arr v hok hT hv
  obtain ⟨i, hi, _, h2, h3⟩ := walk_some_mem _ _ _ _ _ _ hw
  have hmem : arr[i] ∈ arr := List.getElem_mem hi
  refine ⟨List.ne_nil_of_mem hmem, ⟨arr[i], hmem, h3, by rw [hp, h2]⟩, ?_⟩
  have := hpid arr[i] hmem
  rw [hp, h2]
  omega

/-- Witness of C2 on the table `[(100,10),(200,30)]` with the `rand()` value
17. -/
theorem pick_winner_returns_entry_witness :
    table_ok [⟨100, 10⟩, ⟨200, 30⟩] ∧
    (∀ e ∈ [(⟨100, 10⟩ : ticket_entry), ⟨200, 30⟩], 0 < e.pid) ∧
    0 < sum_tickets [⟨100, 10⟩, ⟨200, 30⟩] 0 ∧ (0 : Int) ≤ 17 ∧
    (∃ e ∈ [(⟨100, 10⟩ : ticket_entry), ⟨200, 30⟩], 0 < e.tickets ∧
      pick_winner [⟨100, 10⟩, ⟨200, 30⟩] 17 = e.pid) ∧
    pick_winner [⟨100, 10⟩, ⟨200, 30⟩] 17 ≠ -1 :=
  ⟨by decide, by decide, by decide, by decide,
    (pick_winner_returns_entry [⟨100, 10⟩, ⟨200, 30⟩] 17 (by decide) (by decide) (by decide)
      (by decide)).2⟩

/-- Claim C3.  `pick_winner` returns `-1` for the empty table and for every
table in which no entry has positive tickets, whatever `rand()` returns. -/
theorem pick_winner_no_winner (arr : List ticket_entry) (v : Int)
    (h : arr = [] ∨ ∀ e ∈ arr, e.tickets ≤ 0) : pick_winner arr v = -1 := by
  have hall : ∀ e ∈ arr, e.tickets ≤ 0 := by
    rcases h with h | h
    · subst h
      simp
    · exact h
  unfold pick_winner
  by_cases hc : (arr.length : Int) ≤ 0
  · rw [if_pos hc]
  · rw [if_neg hc]
    simp only
    rw [sum_tickets_nonpos arr 0 hall, if_pos (le_refl _)]

/-- Witness of C3 on the empty table and on a table without positive
tickets. -/
theorem pick_winner_no_winner_witness :
    pick_winner [] 5 = -1 ∧ pick_winner [⟨100, 0⟩, ⟨200, -3⟩] 5 = -1 :=
  ⟨pick_winner_no_winner [] 5 (Or.inl rfl),
   pick_winner_no_winner [⟨100, 0⟩, ⟨200, -3⟩] 5 (Or.inr (by decide))⟩

/-! ### Characters and decimal numerals -/

theorem isdigit_digit_char (d : Nat) (h : d < 10) : isdigit (digit_char d) = true := by
  interval_cases d <;> decide

theorem toNat_digit_char (d : Nat) (h : d < 10) : (digit_char d).toNat - 48 = d := by
  interval_cases d <;> decide

theorem isspace_of_isdigit (c : Char) (h : isdigit c = true) : isspace c = false := by
  unfold isdigit at h
  simp only [Bool.and_eq_true, decide_eq_true_eq] at h
  unfold isspace
  simp only [Bool.or_eq_false_iff, beq_eq_false_iff_ne, ne_eq]
  refine ⟨⟨⟨⟨⟨?_, ?_⟩, ?_⟩, ?_⟩, ?_⟩, ?_⟩ <;>
  · rintro rfl
    revert h
    decide

theorem not_sign_of_isdigit (c : Char) (h : isdigit c = true) :
    (c == '-' || c == '+') = false := by
  unfold isdigit at h
  simp only [Bool.and_eq_true, decide_eq_true_eq] at h
  simp only [Bool.or_eq_false_iff, beq_eq_false_iff_ne, ne_eq]
  refine ⟨?_, ?_⟩ <;>
  · rintro rfl
    revert h
    decide

theorem print_nat_aux_eq (fuel n : Nat) (acc : List Char) (h : n < fuel) :
    print_nat_aux fuel n acc = print_nat n ++ acc := by
  induction fuel using Nat.strong_induction_on generalizing n acc with
  | _ fuel ih =>
    cases fuel with
    | zero => omega
    | succ fuel =>
      unfold print_nat
      by_cases hn : n < 10
      · simp [print_nat_aux, hn]
      · have hd : n / 10 < n := Nat.div_lt_self (by omega) (by omega)
        simp only [print_nat_aux, hn, if_false]
        rw [ih fuel (by omega) (n / 10) _ (by omega), ih n (by omega) (n / 10) _ hd]
        simp

theorem print_nat_small (n : Nat) (h : n < 10) : print_nat n = [digit_char n] := by
  simp [print_nat, print_nat_aux, h]

theorem print_nat_big (n : Nat) (h : ¬ n < 10) :
    print_nat n = print_nat (n / 10) ++ [digit_char (n % 10)] := by
  have hd : n / 10 < n := Nat.div_lt_self (by omega) (by omega)
  conv_lhs => unfold print_nat
  simp only [print_nat_aux, h, if_false]
  exact print_nat_aux_eq n (n / 10) _ hd

theorem print_nat_digits (n : Nat) : ∀ c ∈ print_nat n, isdigit c = true := by
  induction n using Nat.strong_induction_on with
  | _ n ih =>
    by_cases hn : n < 10
    · rw [print_nat_small n hn]
      intro c hc
      simp only [List.mem_singleton] at hc
      subst hc
      exact isdigit_digit_char n hn
    · rw [print_nat_big n hn]
      intro c hc
      rw [List.mem_append] at hc
      rcases hc with hc | hc
      · exact ih (n / 10) (Nat.div_lt_self (by omega) (by omega)) c hc
      · simp only [List.mem_singleton] at hc
        subst hc
        exact isdigit_digit_char _ (Nat.mod_lt _ (by omega))

theorem print_nat_ne_nil (n : Nat) : print_nat n ≠ [] := by
  by_cases hn : n < 10
  · rw [print_nat_small n hn]
    simp
  · rw [print_nat_big n hn]
    simp

theorem digits_val_append (l1 l2 : List Char) (a : Nat) :
    digits_val (l1 ++ l2) a = digits_val l2 (digits_val l1 a) := by
  induction l1 generalizing a with
  | nil => rfl
  | cons c t ih => simp [digits_val, ih]

/-- Reading back the decimal numeral of `n` gives `n`. -/
theorem digits_val_print_nat (n : Nat) : digits_val (print_nat n) 0 = n := by
  induction n using Nat.strong_induction_on with
  | _ n ih =>
    by_cases hn : n < 10
    · rw [print_nat_small n hn]
      simp [digits_val, toNat_digit_char n hn]
    · rw [print_nat_big n hn, digits_val_append, ih (n / 10) (Nat.div_lt_self (by omega) (by omega))]
      simp only [digits_val]
      rw [toNat_digit_char _ (Nat.mod_lt _ (by omega))]
      omega

theorem takeWhile_digits (ds : List Char) (c : Char) (rest : List Char)
    (hds : ∀ x ∈ ds, isdigit x = true) (hc : isdigit c = false) :
    (ds ++ c :: rest).takeWhile isdigit = ds ∧ (ds ++ c :: rest).dropWhile isdigit = c :: rest := by
  induction ds with
  | nil => simp [List.takeWhile, List.dropWhile, hc]
  | cons d t ih =>
    have hd := hds d (List.mem_cons_self _ _)
    have := ih (fun x hx => hds x (List.mem_cons_of_mem _ hx))
    simp [List.takeWhile, List.dropWhile, hd, this]

theorem dropWhile_space (ws : List Char) (s : List Char) (hws : ∀ x ∈ ws, isspace x = true) :
    (ws ++ s).dropWhile isspace = s.dropWhile isspace := by
  induction ws with
  | nil => rfl
  | cons w t ih =>
    have hw := hws w (List.mem_cons_self _ _)
    simp [List.dropWhile, hw, ih (fun x hx => hws x (List.mem_cons_of_mem _ hx))]

theorem to_int_eq (x : Int) (h1 : -2147483648 ≤ x) (h2 : x ≤ 2147483647) : to_int x = x := by
  unfold to_int wrap
  norm_num
  omega

/-- The directive `%d` on optional white space followed by the numeral of `n`
and a character that is not a digit: it converts `n` and stops before that
character. -/
theorem scan_d_numeral (ws : List Char) (n : Nat) (c : Char) (rest : List Char)
    (hws : ∀ x ∈ ws, isspace x = true) (hc : isdigit c = false) (hn : (n : Int) ≤ INT_MAX) :
    scan_d (ws ++ (print_nat n ++ c :: rest)) = Conv.converted n (c :: rest) := by
  obtain ⟨d, t, hdt⟩ : ∃ d t, print_nat n = d :: t := by
    cases hp : print_nat n with
    | nil => exact absurd hp (print_nat_ne_nil n)
    | cons d t => exact ⟨d, t, rfl⟩
  have hdig := print_nat_digits n
  have hd : isdigit d = true := hdig d (by rw [hdt]; exact List.mem_cons_self _ _)
  have htw := takeWhile_digits (print_nat n) c rest hdig hc
  have hval := digits_val_print_nat n
  rw [hdt] at htw hval
  have hsp : (d :: (t ++ c :: rest)).dropWhile isspace = d :: (t ++ c :: rest) := by
    simp [List.dropWhile_cons, isspace_of_isdigit d hd]
  have hsign := not_sign_of_isdigit d hd
  have hminus : (d == '-') = false := by
    simp only [Bool.or_eq_false_iff] at hsign
    exact hsign.1
  simp only [List.cons_append] at htw
  unfold scan_d
  rw [dropWhile_space ws _ hws, hdt, List.cons_append, hsp]
  dsimp only
  rw [hsign]
  simp only [Bool.false_eq_true, if_false, htw.1, htw.2, List.isEmpty_cons, hminus]
  unfold strtol
  simp only [Bool.false_eq_true, if_false, hval]
  unfold INT_MAX at hn
  unfold LONG_MAX
  rw [min_eq_left (by omega), to_int_eq _ (by omega) hn]

theorem print_int_pos (x : Int) (h : 0 < x) : print_int x = print_nat x.toNat := by
  unfold print_int
  rw [if_neg (by omega)]

theorem scan_d_end (ws : List Char) (hws : ∀ x ∈ ws, isspace x = true) :
    scan_d ws = Conv.input_failure := by
  have h := dropWhile_space ws [] hws
  simp only [List.append_nil, List.dropWhile_nil] at h
  unfold scan_d
  rw [h]

theorem fscanf_dd_end (ws : List Char) (hws : ∀ x ∈ ws, isspace x = true) :
    fscanf_dd ws = (EOF, 0, 0, []) := by
  unfold fscanf_dd
  rw [scan_d_end ws hws]

/-- The call of `fscanf` on optional white space followed by a written row:
both fields are converted and the newline of the row stays in the file. -/
theorem fscanf_dd_row (ws : List Char) (e : ticket_entry) (tail : List Char)
    (hws : ∀ x ∈ ws, isspace x = true) (he : valid_entry e) :
    fscanf_dd (ws ++ (print_int e.pid ++ ' ' :: (print_int e.tickets ++ '\n' :: tail)))
      = (2, e.pid, e.tickets, '\n' :: tail) := by
  obtain ⟨h1, h2, h3, h4⟩ := he
  have hp : ((e.pid.toNat : Nat) : Int) = e.pid := Int.toNat_of_nonneg (le_of_lt h1)
  have ht : ((e.tickets.toNat : Nat) : Int) = e.tickets := Int.toNat_of_nonneg (le_of_lt h3)
  rw [print_int_pos _ h1, print_int_pos _ h3]
  unfold fscanf_dd
  rw [scan_d_numeral ws e.pid.toNat ' ' _ hws (by decide) (by rw [hp]; exact h2)]
  dsimp only
  have hsp : ∀ x ∈ [' '], isspace x = true := by
    intro x hx
    simp only [List.mem_singleton] at hx
    subst hx
    decide
  have h := scan_d_numeral [' '] e.tickets.toNat '\n' tail hsp (by decide) (by rw [ht]; exact h4)
  simp only [List.singleton_append] at h
  rw [h, hp, ht]

theorem write_rows_valid (e : ticket_entry) (rest : List ticket_entry) (he : valid_entry e) :
    focusctl.write_rows (e :: rest)
      = print_int e.pid ++ ' ' :: (print_int e.tickets ++ '\n' :: focusctl.write_rows rest) := by
  obtain ⟨h1, _, h3, _⟩ := he
  rw [focusctl.write_rows, if_neg (by omega)]

theorem isspace_newline_list : ∀ x ∈ ['\n'], isspace x = true := by
  intro x hx
  simp only [List.mem_singleton] at hx
  subst hx
  decide

/-- The loop of the daemon on a file of written rows loads them all, in
order, after the entries already stored. -/
theorem focusd_scan_rows (alloc : Nat → Bool) (hall : ∀ n, alloc n = true)
    (arr : List ticket_entry) (hv : ∀ e ∈ arr, valid_entry e) :
    ∀ (fuel : Nat) (ws : List Char) (capacity : Nat) (acc : List ticket_entry),
      (∀ x ∈ ws, isspace x = true) → 0 < fuel →
      arr.length < fuel →
      focusd.scan_loop alloc fuel (ws ++ focusctl.write_rows arr) capacity acc
        = LoopResult.done (acc ++ arr) := by
  induction arr with
  | nil =>
    intro fuel ws capacity acc hws hf _
    obtain ⟨f, rfl⟩ : ∃ f, fuel = f + 1 := ⟨fuel - 1, by omega⟩
    simp only [focusctl.write_rows, List.append_nil]
    unfold focusd.scan_loop
    rw [fscanf_dd_end ws hws]
    simp
  | cons e rest ih =>
    intro fuel ws capacity acc hws hf hlen
    obtain ⟨f, rfl⟩ : ∃ f, fuel = f + 1 := ⟨fuel - 1, by omega⟩
    have he := hv e (List.mem_cons_self _ _)
    have hrest : ∀ x ∈ rest, valid_entry x := fun x hx => hv x (List.mem_cons_of_mem _ hx)
    simp only [List.length_cons] at hlen
    have hnext : ∀ cap, focusd.scan_loop alloc f ('\n' :: focusctl.write_rows rest) cap
        (acc ++ [e]) = LoopResult.done (acc ++ e :: rest) := by
      intro cap
      have := ih hrest f ['\n'] cap (acc ++ [e]) isspace_newline_list (by omega) (by omega)
      simpa using this
    rw [write_rows_valid e rest he]
    unfold focusd.scan_loop
    rw [fscanf_dd_row ws e _ hws he]
    obtain ⟨h1, _, h3, _⟩ := he
    have e2 : (2 : Int) ≠ EOF := by decide
    simp only [e2, if_false, ne_eq, not_true_eq_false, if_neg (not_le.mpr h3),
      if_neg (not_le.mpr h1), hall, if_true, hnext, ite_self]

/-! ### Every iteration consumes input: the loops do not run out of fuel -/

theorem scan_body_le (c : Char) (t : List Char) :
    (if (c == '-' || c == '+') = true then t else c :: t).length ≤ (c :: t).length := by
  split <;> simp

theorem scan_d_converted_lt (s : List Char) (v : Int) (rest : List Char)
    (h : scan_d s = Conv.converted v rest) : rest.length < s.length := by
  have hsuf : (s.dropWhile isspace).length ≤ s.length :=
    (List.dropWhile_suffix isspace).length_le
  unfold scan_d at h
  cases hd : s.dropWhile isspace with
  | nil => rw [hd] at h; simp at h
  | cons c t =>
    rw [hd] at h hsuf
    dsimp only at h
    have hb := scan_body_le c t
    generalize (if (c == '-' || c == '+') = true then t else c :: t) = body at h hb
    by_cases hne : (body.takeWhile isdigit).isEmpty = true
    · rw [if_pos hne] at h
      simp at h
    · rw [if_neg hne] at h
      simp only [Conv.converted.injEq] at h
      obtain ⟨_, hr⟩ := h
      subst hr
      have hsplit := List.takeWhile_append_dropWhile isdigit body
      have hlen := congrArg List.length hsplit
      rw [List.length_append] at hlen
      have hpos : 0 < (body.takeWhile isdigit).length := by
        cases htw : body.takeWhile isdigit with
        | nil => rw [htw] at hne; simp at hne
        | cons _ _ => simp
      omega

theorem scan_d_failure_le (s : List Char) (rest : List Char)
    (h : scan_d s = Conv.matching_failure rest) : rest.length ≤ s.length := by
  have hsuf : (s.dropWhile isspace).length ≤ s.length :=
    (List.dropWhile_suffix isspace).length_le
  unfold scan_d at h
  cases hd : s.dropWhile isspace with
  | nil => rw [hd] at h; simp at h
  | cons c t =>
    rw [hd] at h hsuf
    dsimp only at h
    have hb := scan_body_le c t
    generalize (if (c == '-' || c == '+') = true then t else c :: t) = body at h hb
    by_cases hne : (body.takeWhile isdigit).isEmpty = true
    · rw [if_pos hne] at h
      simp only [Conv.matching_failure.injEq] at h
      subst h
      omega
    · rw [if_neg hne] at h
      simp at h

theorem fscanf_dd_length (s : List Char) (n a b : Int) (rest : List Char)
    (h : fscanf_dd s = (n, a, b, rest)) :
    rest.length ≤ s.length ∧ (n = 2 → rest.length < s.length) := by
  unfold fscanf_dd at h
  cases h1 : scan_d s with
  | input_failure =>
    rw [h1] at h
    simp only [Prod.mk.injEq] at h
    obtain ⟨hn, _, _, hr⟩ := h
    subst hr hn
    simp [EOF]
  | matching_failure r1 =>
    rw [h1] at h
    simp only [Prod.mk.injEq] at h
    obtain ⟨hn, _, _, hr⟩ := h
    subst hr hn
    exact ⟨scan_d_failure_le s _ h1, by omega⟩
  | converted v r1 =>
    rw [h1] at h
    have hlt := scan_d_converted_lt s v r1 h1
    dsimp only at h
    cases h2 : scan_d r1 with
    | input_failure =>
      rw [h2] at h
      simp only [Prod.mk.injEq] at h
      obtain ⟨hn, _, _, hr⟩ := h
      subst hr hn
      simp
    | matching_failure r2 =>
      rw [h2] at h
      simp only [Prod.mk.injEq] at h
      obtain ⟨hn, _, _, hr⟩ := h
      subst hr hn
      have := scan_d_failure_le r1 _ h2
      exact ⟨by omega, by omega⟩
    | converted w r2 =>
      rw [h2] at h
      simp only [Prod.mk.injEq] at h
      obtain ⟨hn, _, _, hr⟩ := h
      subst hr hn
      have := scan_d_converted_lt r1 w _ h2
      exact ⟨by omega, by omega⟩

theorem fgets_rest_le (k : Nat) (s : List Char) : (fgets_rest k s).length ≤ s.length := by
  induction s generalizing k with
  | nil => cases k <;> simp [fgets_rest]
  | cons c t ih =>
    cases k with
    | zero => simp [fgets_rest]
    | succ k =>
      simp only [fgets_rest]
      split
      · simp
      · have := ih k
        simp only [List.length_cons]
        omega

theorem fgets_length (s rest : List Char) (h : fgets 256 s = some rest) :
    rest.length < s.length := by
  unfold fgets at h
  cases s with
  | nil => simp at h
  | cons c t =>
    simp only [Option.some.injEq] at h
    subst h
    show (fgets_rest (255 : Nat) (c :: t)).length < (c :: t).length
    simp only [fgets_rest]
    split
    · simp
    · have := fgets_rest_le 254 t
      simp only [List.length_cons]
      omega

/-- With more fuel than characters left, the loop of the daemon ends by
itself. -/
theorem focusd_scan_loop_ends (alloc : Nat → Bool) (fuel : Nat) (s : List Char)
    (capacity : Nat) (arr : List ticket_entry) (h : s.length < fuel) :
    focusd.scan_loop alloc fuel s capacity arr ≠ LoopResult.out_of_fuel := by
  induction fuel generalizing s capacity arr with
  | zero => omega
  | succ f ih =>
    unfold focusd.scan_loop
    rcases hf : fscanf_dd s with ⟨n, pid_i, tickets, rest⟩
    have hl := fscanf_dd_length s n pid_i tickets rest hf
    dsimp only
    split
    · simp
    · split
      · cases hg : fgets 256 rest with
        | none => simp
        | some rest2 =>
          have := fgets_length rest rest2 hg
          exact ih _ _ _ (by omega)
      · rename_i hn2
        have hn : n = 2 := by
          simpa using hn2
        have hlt := hl.2 hn
        split
        · exact ih _ _ _ (by omega)
        · split
          · exact ih _ _ _ (by omega)
          · split
            · split
              · exact ih _ _ _ (by omega)
              · simp
            · exact ih _ _ _ (by omega)

/-- With more fuel than characters left, the loop of focusctl ends by itself,
and it never fails. -/
theorem focusctl_scan_loop_ends (fuel : Nat) (s : List Char)
    (max_entries : Nat) (arr : List ticket_entry) (h : s.length < fuel) :
    ∃ out, focusctl.scan_loop fuel s max_entries arr = LoopResult.done out := by
  induction fuel generalizing s arr with
  | zero => omega
  | succ f ih =>
    unfold focusctl.scan_loop
    split
    · exact ⟨_, rfl⟩
    · rcases hf : fscanf_dd s with ⟨n, pid_i, tickets, rest⟩
      have hl := fscanf_dd_length s n pid_i tickets rest hf
      dsimp only
      split
      · exact ⟨_, rfl⟩
      · split
        · cases hg : fgets 256 rest with
          | none => exact ⟨_, rfl⟩
          | some rest2 =>
            have := fgets_length rest rest2 hg
            exact ih _ _ (by omega)
        · rename_i hn2
          have hn : n = 2 := by
            simpa using hn2
          have hlt := hl.2 hn
          split
          · exact ih _ _ (by omega)
          · exact ih _ _ (by omega)

/-! ### The loader of the daemon -/

/-- Claim C4 fails on the code.  The file `"42\n7 8\n"` holds the malformed
line `42` and the valid row `7 8`; the loader returns the single entry
`(42, 7)`, because the second `%d` skips the newline after `42` and takes its
value from the next line, and the `8` left over is then dropped. -/
theorem focusd_load_short_line :
    focusd.load_ticket_entries (healthy_host "42\n7 8\n".toList) = some [⟨42, 7⟩] := by
  decide

/-- The other lines that claim C4 names are dropped on their own: a blank
line, a line starting with a token that is not a number, and a row with a
non-positive field leave the rows around them as they are. -/
theorem focusd_load_mixed_lines :
    focusd.load_ticket_entries (healthy_host "100 10\n\nabc 5\n-3 10\n200 30\n".toList)
      = some [⟨100, 10⟩, ⟨200, 30⟩] := by
  decide

theorem focusd_scan_loop_positive (alloc : Nat → Bool) (fuel : Nat) (s : List Char)
    (capacity : Nat) (arr out : List ticket_entry)
    (harr : ∀ e ∈ arr, 0 < e.pid ∧ 0 < e.tickets)
    (h : focusd.scan_loop alloc fuel s capacity arr = LoopResult.done out) :
    ∀ e ∈ out, 0 < e.pid ∧ 0 < e.tickets := by
  induction fuel generalizing s capacity arr with
  | zero => simp [focusd.scan_loop] at h
  | succ f ih =>
    unfold focusd.scan_loop at h
    rcases hf : fscanf_dd s with ⟨n, pid_i, tickets, rest⟩
    rw [hf] at h
    dsimp only at h
    have hpush : 0 < tickets → 0 < pid_i →
        ∀ e ∈ arr ++ [(⟨pid_i, tickets⟩ : ticket_entry)], 0 < e.pid ∧ 0 < e.tickets := by
      intro ht hp e he
      rw [List.mem_append] at he
      rcases he with he | he
      · exact harr e he
      · simp only [List.mem_singleton] at he
        subst he
        exact ⟨hp, ht⟩
    split at h
    · simp only [LoopResult.done.injEq] at h
      subst h
      exact harr
    · split at h
      · cases hg : fgets 256 rest with
        | none =>
          rw [hg] at h
          simp only [LoopResult.done.injEq] at h
          subst h
          exact harr
        | some rest2 =>
          rw [hg] at h
          exact ih _ _ _ harr h
      · split at h
        · exact ih _ _ _ harr h
        · split at h
          · exact ih _ _ _ harr h
          · rename_i ht hp
            split at h
            · split at h
              · exact ih _ _ _ (hpush (by omega) (by omega)) h
              · simp at h
            · exact ih _ _ _ (hpush (by omega) (by omega)) h

theorem focusd_scan_loop_no_failure (alloc : Nat → Bool) (halloc : ∀ n, alloc n = true)
    (fuel : Nat) (s : List Char) (capacity : Nat) (arr : List ticket_entry) :
    focusd.scan_loop alloc fuel s capacity arr ≠ LoopResult.failed := by
  induction fuel generalizing s capacity arr with
  | zero => simp [focusd.scan_loop]
  | succ f ih =>
    unfold focusd.scan_loop
    rcases hf : fscanf_dd s with ⟨n, pid_i, tickets, rest⟩
    dsimp only
    split
    · simp
    · split
      · cases hg : fgets 256 rest with
        | none => simp
        | some rest2 => exact ih _ _ _
      · split
        · exact ih _ _ _
        · split
          · exact ih _ _ _
          · split
            · rw [halloc, if_pos rfl]
              exact ih _ _ _
            · exact ih _ _ _

/-- Claim C5.  Whatever the ticket file holds, every entry of the table that
the loader of the daemon returns has `pid > 0` and `tickets > 0`; and the
loader does return a table whenever the state directory, the file and the
allocator do not fail. -/
theorem focusd_load_positive (h : Host) :
    (∀ arr, focusd.load_ticket_entries h = some arr → ∀ e ∈ arr, 0 < e.pid ∧ 0 < e.tickets) ∧
    (h.state_dir_ok = true → h.procs ≠ ProcsFile.unreadable → (∀ n, h.alloc n = true) →
      ∃ arr, focusd.load_ticket_entries h = some arr) := by
  constructor
  · intro arr hl
    unfold focusd.load_ticket_entries at hl
    split at hl
    · simp at hl
    · split at hl
      · simp only [Option.some.injEq] at hl
        subst hl
        simp
      · simp at hl
      · rename_i s _
        split at hl
        · simp at hl
        · split at hl
          · rename_i out hs
            simp only [Option.some.injEq] at hl
            subst hl
            exact focusd_scan_loop_positive _ _ _ _ [] _ (by simp) hs
          · simp at hl
          · simp at hl
  · intro hdir hproc halloc
    unfold focusd.load_ticket_entries
    rw [hdir]
    simp only [Bool.not_true, Bool.false_eq_true, if_false, halloc]
    cases hp : h.procs with
    | missing => exact ⟨[], rfl⟩
    | unreadable => exact absurd hp hproc
    | content s =>
      dsimp only
      have hend := focusd_scan_loop_ends h.alloc (s.length + 1) s 16 [] (by omega)
      cases hs : focusd.scan_loop h.alloc (s.length + 1) s 16 [] with
      | out_of_fuel => exact absurd hs hend
      | failed => exact absurd hs (focusd_scan_loop_no_failure h.alloc halloc _ _ _ _)
      | done out => exact ⟨out, rfl⟩

/-- Witness of C5 on a file with two valid rows and two rows with a
non-positive field. -/
theorem focusd_load_positive_witness :
    focusd.load_ticket_entries (healthy_host "100 10\n-3 10\n7 0\n200 30\n".toList)
      = some [⟨100, 10⟩, ⟨200, 30⟩] ∧
    ∀ e ∈ [(⟨100, 10⟩ : ticket_entry), ⟨200, 30⟩], 0 < e.pid ∧ 0 < e.tickets :=
  ⟨by decide,
   (focusd_load_positive (healthy_host "100 10\n-3 10\n7 0\n200 30\n".toList)).1
     [⟨100, 10⟩, ⟨200, 30⟩] (by decide)⟩

theorem write_rows_length (arr : List ticket_entry) (hv : ∀ e ∈ arr, valid_entry e) :
    arr.length ≤ (focusctl.write_rows arr).length := by
  induction arr with
  | nil => simp
  | cons e rest ih =>
    rw [write_rows_valid e rest (hv e (List.mem_cons_self _ _))]
    have := ih (fun x hx => hv x (List.mem_cons_of_mem _ hx))
    simp only [List.length_cons, List.length_append]
    omega

/-- Claim C6.  Writing a sequence of entries with positive `int` fields with
`save_ticket_entries` and reading the file back with the loader of the daemon
gives the same sequence. -/
theorem save_load_round_trip (h : Host) (arr : List ticket_entry)
    (hv : ∀ e ∈ arr, valid_entry e) (hdir : h.state_dir_ok = true)
    (hw : h.writable = true) (halloc : ∀ n, h.alloc n = true) :
    (focusctl.save_ticket_entries h arr).1 = 0 ∧
    focusd.load_ticket_entries (focusctl.save_ticket_entries h arr).2 = some arr := by
  unfold focusctl.save_ticket_entries
  rw [hdir, hw]
  simp only [Bool.not_true, Bool.false_eq_true, if_false, true_and]
  unfold focusd.load_ticket_entries
  simp only [hdir, Bool.not_true, Bool.false_eq_true, if_false, halloc]
  have hlen := write_rows_length arr hv
  have := focusd_scan_rows h.alloc halloc arr hv ((focusctl.write_rows arr).length + 1) [] 16 []
    (by simp) (by omega) (by omega)
  simp only [List.nil_append] at this
  rw [this]

/-- Witness of C6 on the table `[(200,30),(100,10)]`. -/
theorem save_load_round_trip_witness :
    (∀ e ∈ [(⟨200, 30⟩ : ticket_entry), ⟨100, 10⟩], valid_entry e) ∧
    (focusctl.save_ticket_entries (healthy_host []) [⟨200, 30⟩, ⟨100, 10⟩]).1 = 0 ∧
    focusd.load_ticket_entries
      (focusctl.save_ticket_entries (healthy_host []) [⟨200, 30⟩, ⟨100, 10⟩]).2
      = some [⟨200, 30⟩, ⟨100, 10⟩] :=
  ⟨by decide,
   save_load_round_trip (healthy_host []) [⟨200, 30⟩, ⟨100, 10⟩] (by decide) rfl rfl
     (fun _ => rfl)⟩

/-! ### One round of the daemon -/

theorem moves_append (a b : List focusd.Event) :
    focusd.moves (a ++ b) = focusd.moves a ++ focusd.moves b := by
  induction a with
  | nil => rfl
  | cons x t ih =>
    cases x with
    | move_pid g p rc => simp [focusd.moves, ih]
    | usleep u => simp [focusd.moves, ih]

theorem sleeps_append (a b : List focusd.Event) :
    focusd.sleeps (a ++ b) = focusd.sleeps a ++ focusd.sleeps b := by
  induction a with
  | nil => rfl
  | cons x t ih =>
    cases x with
    | move_pid g p rc => simp [focusd.sleeps, ih]
    | usleep u => simp [focusd.sleeps, ih]

theorem moves_move_all (h : Host) (winner : Int) (arr : List ticket_entry) :
    focusd.moves (focusd.move_all h winner arr)
      = arr.map (fun e => (if e.pid = winner then focusd.FOCUS_NAME else focusd.BG_NAME, e.pid)) := by
  induction arr with
  | nil => rfl
  | cons e rest ih =>
    simp only [focusd.move_all, List.map_cons]
    split <;> simp [focusd.moves, ih]

theorem sleeps_move_all (h : Host) (winner : Int) (arr : List ticket_entry) :
    focusd.sleeps (focusd.move_all h winner arr) = [] := by
  induction arr with
  | nil => rfl
  | cons e rest ih =>
    simp only [focusd.move_all]
    split <;> simp [focusd.sleeps, ih]

/-- Claim C7.  In a round whose loaded table `arr` is not empty and whose
winner is positive, the `move_pid` calls are exactly one per entry, in table
order, into `focus` for the entries whose pid is the winner and into
`background` for the others; the calls are the same whatever `move_pid`
returns; and no pid is moved into both groups. -/
theorem daemon_round_moves (h : Host) (timeslice_ms v : Int) (arr : List ticket_entry)
    (hl : focusd.load_ticket_entries h = some arr) (hne : arr ≠ [])
    (hw : 0 < pick_winner arr v) :
    focusd.moves (focusd.daemon_round h timeslice_ms v)
      = arr.map (fun e =>
          (if e.pid = pick_winner arr v then focusd.FOCUS_NAME else focusd.BG_NAME, e.pid))
    ∧ (∀ ok : String → Int → Bool,
        focusd.moves (focusd.daemon_round { h with cgroup_write_ok := ok } timeslice_ms v)
          = focusd.moves (focusd.daemon_round h timeslice_ms v))
    ∧ (∀ p : Int, ¬ ((focusd.FOCUS_NAME, p) ∈ focusd.moves (focusd.daemon_round h timeslice_ms v)
        ∧ (focusd.BG_NAME, p) ∈ focusd.moves (focusd.daemon_round h timeslice_ms v))) := by
  have hlen : ¬ ((arr.length : Int) ≤ 0) := by
    intro hc
    have h0 : arr.length = 0 := by omega
    exact hne (List.length_eq_zero.mp h0)
  have key : ∀ h2 : Host, focusd.load_ticket_entries h2 = some arr →
      focusd.moves (focusd.daemon_round h2 timeslice_ms v)
        = arr.map (fun e =>
            (if e.pid = pick_winner arr v then focusd.FOCUS_NAME else focusd.BG_NAME, e.pid)) := by
    intro h2 hl2
    unfold focusd.daemon_round
    rw [hl2]
    simp only [hlen, if_false, gt_iff_lt, hw, if_true, moves_append, moves_move_all]
    simp [focusd.moves]
  refine ⟨key h hl, ?_, ?_⟩
  · intro ok
    rw [key h hl]
    exact key _ hl
  · intro p hp
    rw [key h hl] at hp
    obtain ⟨hf, hb⟩ := hp
    simp only [List.mem_map, Prod.mk.injEq] at hf hb
    obtain ⟨e1, _, hg1, hp1⟩ := hf
    obtain ⟨e2, _, hg2, hp2⟩ := hb
    have hfb : focusd.FOCUS_NAME ≠ focusd.BG_NAME := by decide
    have h1 : e1.pid = pick_winner arr v := by
      by_contra hc
      rw [if_neg hc] at hg1
      exact hfb hg1.symm
    have h2 : e2.pid ≠ pick_winner arr v := by
      intro hc
      rw [if_pos hc] at hg2
      exact hfb hg2
    rw [hp2, ← hp1] at h2
    exact h2 h1

/-- Witness of C7: with the table `[(100,10),(200,30)]` and the `rand()` value
17 the winner is 200. -/
theorem daemon_round_moves_witness :
    focusd.load_ticket_entries (healthy_host "100 10\n200 30\n".toList)
      = some [⟨100, 10⟩, ⟨200, 30⟩] ∧
    0 < pick_winner [⟨100, 10⟩, ⟨200, 30⟩] 17 ∧
    focusd.moves (focusd.daemon_round (healthy_host "100 10\n200 30\n".toList) 100 17)
      = [("background", 100), ("focus", 200)] :=
  ⟨by decide, by decide,
   (daemon_round_moves (healthy_host "100 10\n200 30\n".toList) 100 17
      [⟨100, 10⟩, ⟨200, 30⟩] (by decide) (by decide) (by decide)).1⟩

/-- Claim C8.  A round in which the loader fails, or returns the empty table,
makes no `move_pid` call: its only call is one `usleep`. -/
theorem daemon_round_idle (h : Host) (timeslice_ms v : Int)
    (hl : focusd.load_ticket_entries h = none ∨ focusd.load_ticket_entries h = some []) :
    focusd.daemon_round h timeslice_ms v = [focusd.Event.usleep (focusd.usleep_arg timeslice_ms)]
    ∧ focusd.moves (focusd.daemon_round h timeslice_ms v) = [] := by
  have hr : focusd.daemon_round h timeslice_ms v
      = [focusd.Event.usleep (focusd.usleep_arg timeslice_ms)] := by
    unfold focusd.daemon_round
    rcases hl with hl | hl
    · rw [hl]
    · rw [hl]
      simp
  rw [hr]
  exact ⟨rfl, rfl⟩

/-- Witness of C8 on a file that cannot be opened and on a file without a
valid row. -/
theorem daemon_round_idle_witness :
    focusd.moves (focusd.daemon_round
      { healthy_host [] with procs := ProcsFile.unreadable } 100 17) = [] ∧
    focusd.moves (focusd.daemon_round (healthy_host "\nabc 5\n-3 10\n".toList) 100 17) = [] :=
  ⟨(daemon_round_idle { healthy_host [] with procs := ProcsFile.unreadable } 100 17
      (Or.inl (by decide))).2,
   (daemon_round_idle (healthy_host "\nabc 5\n-3 10\n".toList) 100 17 (Or.inr (by decide))).2⟩

/-- Every round, whatever it does, calls `usleep` exactly once, with the
argument computed from `timeslice_ms * 1000`. -/
theorem daemon_round_sleeps_once (h : Host) (timeslice_ms v : Int) :
    focusd.sleeps (focusd.daemon_round h timeslice_ms v) = [focusd.usleep_arg timeslice_ms] := by
  unfold focusd.daemon_round
  cases focusd.load_ticket_entries h with
  | none => rfl
  | some arr =>
    dsimp only
    split
    · rfl
    · rw [sleeps_append]
      split
      · rw [sleeps_move_all]
        rfl
      · rfl

/-- Up to 2147483 ms the product `timeslice_ms * 1000` fits an `int` and the
argument of `usleep` is the timeslice in microseconds. -/
theorem usleep_arg_exact (timeslice_ms : Int) (h0 : 0 < timeslice_ms)
    (h1 : timeslice_ms ≤ 2147483) : focusd.usleep_arg timeslice_ms = 1000 * timeslice_ms := by
  unfold focusd.usleep_arg to_useconds
  rw [to_int_eq _ (by omega) (by omega)]
  norm_num
  omega

/-- Claim C9 fails on the code.  The timeslice 4294968 ms is accepted at
startup, the product `4294968 * 1000` does not fit 32 bits, and the one
`usleep` of a round is called with 704 microseconds. -/
theorem daemon_round_sleep_overflow :
    focusd.timeslice_accepted 4294968 = true ∧ int_range 4294968 ∧
    focusd.sleeps (focusd.daemon_round (healthy_host "100 10\n".toList) 4294968 0) = [704] ∧
    (704 : Int) ≠ 1000 * 4294968 := by
  decide

/-! ### The ticket table of focusctl -/

/-- The loop of focusctl on a file of written rows loads them all, in order,
after the entries already stored, as long as the array has room for them. -/
theorem focusctl_scan_rows (max_entries : Nat) (arr : List ticket_entry)
    (hv : ∀ e ∈ arr, valid_entry e) :
    ∀ (fuel : Nat) (ws : List Char) (acc : List ticket_entry),
      (∀ x ∈ ws, isspace x = true) → arr.length < fuel →
      acc.length + arr.length ≤ max_entries →
      focusctl.scan_loop fuel (ws ++ focusctl.write_rows arr) max_entries acc
        = LoopResult.done (acc ++ arr) := by
  induction arr with
  | nil =>
    intro fuel ws acc hws hf _
    obtain ⟨f, rfl⟩ : ∃ f, fuel = f + 1 := ⟨fuel - 1, by simp at hf; omega⟩
    simp only [focusctl.write_rows, List.append_nil]
    unfold focusctl.scan_loop
    rw [fscanf_dd_end ws hws]
    simp
  | cons e rest ih =>
    intro fuel ws acc hws hf hmax
    simp only [List.length_cons] at hf hmax
    obtain ⟨f, rfl⟩ : ∃ f, fuel = f + 1 := ⟨fuel - 1, by omega⟩
    have he := hv e (List.mem_cons_self _ _)
    have hrest : ∀ x ∈ rest, valid_entry x := fun x hx => hv x (List.mem_cons_of_mem _ hx)
    have hnext : focusctl.scan_loop f ('\n' :: focusctl.write_rows rest) max_entries
        (acc ++ [e]) = LoopResult.done (acc ++ e :: rest) := by
      have := ih hrest f ['\n'] (acc ++ [e]) isspace_newline_list (by omega)
        (by simp only [List.length_append, List.length_singleton]; omega)
      simpa using this
    rw [write_rows_valid e rest he]
    unfold focusctl.scan_loop
    rw [fscanf_dd_row ws e _ hws he]
    obtain ⟨h1, _, h3, _⟩ := he
    have e2 : (2 : Int) ≠ EOF := by decide
    have hroom : acc.length < max_entries := by omega
    simp only [hroom, not_true_eq_false, if_false, e2, ne_eq, if_neg (not_le.mpr h3), hnext]

/-- The loader of focusctl reads back a written table of at most
`max_entries` rows. -/
theorem focusctl_load_rows (h : Host) (max_entries : Nat) (rows : List ticket_entry)
    (hfile : h.procs = ProcsFile.content (focusctl.write_rows rows))
    (hv : ∀ e ∈ rows, valid_entry e) (hlen : rows.length ≤ max_entries) :
    focusctl.load_ticket_entries h max_entries = some rows := by
  unfold focusctl.load_ticket_entries
  rw [hfile]
  dsimp only
  have hl := write_rows_length rows hv
  have := focusctl_scan_rows max_entries rows hv ((focusctl.write_rows rows).length + 1) [] []
    (by simp) (by omega) (by simpa using hlen)
  simp only [List.nil_append] at this
  rw [this]

theorem set_tickets_absent (rows : List ticket_entry) (pid tickets : Int)
    (h : pid ∉ rows.map (fun e => e.pid)) : focusctl.set_tickets rows pid tickets = none := by
  induction rows with
  | nil => rfl
  | cons e rest ih =>
    simp only [List.map_cons, List.mem_cons, not_or] at h
    simp only [focusctl.set_tickets]
    rw [if_neg (fun hc => h.1 hc.symm), ih h.2]
    rfl

theorem map_update_absent (rows : List ticket_entry) (pid tickets : Int)
    (h : pid ∉ rows.map (fun e => e.pid)) :
    rows.map (fun e => if e.pid = pid then (⟨pid, tickets⟩ : ticket_entry) else e) = rows := by
  induction rows with
  | nil => rfl
  | cons e rest ih =>
    simp only [List.map_cons, List.mem_cons, not_or] at h
    simp only [List.map_cons]
    rw [if_neg (fun hc => h.1 hc.symm), ih h.2]

/-- With distinct pids the search loop of `cmd_add` changes the one row of
`pid` and nothing else. -/
theorem set_tickets_present (rows : List ticket_entry) (pid tickets : Int)
    (hnd : (rows.map (fun e => e.pid)).Nodup) (h : pid ∈ rows.map (fun e => e.pid)) :
    focusctl.set_tickets rows pid tickets
      = some (rows.map (fun e => if e.pid = pid then ⟨pid, tickets⟩ else e)) := by
  induction rows with
  | nil => simp at h
  | cons e rest ih =>
    simp only [List.map_cons, List.nodup_cons] at hnd
    simp only [focusctl.set_tickets, List.map_cons]
    by_cases hp : e.pid = pid
    · rw [if_pos hp, if_pos hp]
      rw [map_update_absent rest pid tickets (by rw [← hp]; exact hnd.1), hp]
    · rw [if_neg hp, if_neg hp]
      simp only [List.map_cons, List.mem_cons] at h
      have hin : pid ∈ rest.map (fun e => e.pid) := by
        rcases h with h | h
        · exact absurd h.symm hp
        · exact h
      rw [ih hnd.2 hin]
      rfl

theorem spec_add_valid (rows : List ticket_entry) (pid tickets : Int)
    (hv : ∀ e ∈ rows, valid_entry e) (hnew : valid_entry ⟨pid, tickets⟩) :
    ∀ e ∈ focusctl.spec_add rows pid tickets, valid_entry e := by
  intro e he
  unfold focusctl.spec_add at he
  split at he
  · simp only [List.mem_map] at he
    obtain ⟨x, hx, hxe⟩ := he
    split at hxe
    · rw [← hxe]
      exact hnew
    · rw [← hxe]
      exact hv x hx
  · rw [List.mem_append] at he
    rcases he with he | he
    · exact hv e he
    · simp only [List.mem_singleton] at he
      rw [he]
      exact hnew

theorem spec_add_pids (rows : List ticket_entry) (pid tickets : Int) :
    (focusctl.spec_add rows pid tickets).map (fun e => e.pid)
      = if pid ∈ rows.map (fun e => e.pid) then rows.map (fun e => e.pid)
        else rows.map (fun e => e.pid) ++ [pid] := by
  unfold focusctl.spec_add
  split
  · rw [List.map_map]
    apply List.map_congr_left
    intro e _
    simp only [Function.comp]
    split
    · rename_i hp
      exact hp.symm
    · rfl
  · simp

theorem spec_add_row (rows : List ticket_entry) (pid tickets : Int)
    (hnd : (rows.map (fun e => e.pid)).Nodup) :
    (focusctl.spec_add rows pid tickets).filter (fun e => decide (e.pid = pid))
      = [⟨pid, tickets⟩] := by
  have habs : ∀ l : List ticket_entry, pid ∉ l.map (fun e => e.pid) →
      l.filter (fun e => decide (e.pid = pid)) = [] := by
    intro l hl
    rw [List.filter_eq_nil_iff]
    intro e he hc
    simp only [decide_eq_true_eq] at hc
    exact hl (List.mem_map.mpr ⟨e, he, hc⟩)
  unfold focusctl.spec_add
  split
  · rename_i hin
    induction rows with
    | nil => simp at hin
    | cons e rest ih =>
      simp only [List.map_cons, List.nodup_cons] at hnd
      simp only [List.map_cons]
      by_cases hp : e.pid = pid
      · rw [if_pos hp, map_update_absent rest pid tickets (by rw [← hp]; exact hnd.1)]
        rw [List.filter_cons_of_pos (by simp), habs rest (by rw [← hp]; exact hnd.1)]
      · rw [if_neg hp, List.filter_cons_of_neg (by simpa using hp)]
        simp only [List.map_cons, List.mem_cons] at hin
        have hin2 : pid ∈ rest.map (fun e => e.pid) := by
          rcases hin with h | h
          · exact absurd h.symm hp
          · exact h
        exact ih hnd.2 hin2
  · rename_i hout
    rw [List.filter_append, habs rows hout]
    simp

theorem save_ok (h : Host) (arr : List ticket_entry) (hdir : h.state_dir_ok = true)
    (hw : h.writable = true) :
    focusctl.save_ticket_entries h arr
      = (0, { h with procs := ProcsFile.content (focusctl.write_rows arr) }) := by
  unfold focusctl.save_ticket_entries
  rw [hdir, hw]
  rfl

theorem cmd_add_eq (h : Host) (rows : List ticket_entry) (pid tickets : Int)
    (hload : focusctl.load_ticket_entries h 1024 = some rows)
    (hlen : rows.length < 1024) (hnd : (rows.map (fun e => e.pid)).Nodup)
    (htk : 0 < tickets) (hdir : h.state_dir_ok = true) (hw : h.writable = true) :
    focusctl.cmd_add h pid tickets
      = (0, { h with procs :=
            ProcsFile.content (focusctl.write_rows (focusctl.spec_add rows pid tickets)) }) := by
  unfold focusctl.cmd_add
  rw [if_neg (by omega), hload]
  dsimp only
  unfold focusctl.spec_add
  by_cases hin : pid ∈ rows.map (fun e => e.pid)
  · rw [set_tickets_present rows pid tickets hnd hin, if_pos hin]
    dsimp only
    rw [save_ok h _ hdir hw]
    simp
  · rw [set_tickets_absent rows pid tickets hin, if_neg hin]
    dsimp only
    rw [if_neg (by omega), save_ok h _ hdir hw]
    simp

/-- Claim C10.  On a persisted table `rows` of fewer than 1024 valid rows with
distinct pids, `cmd_add(pid, tickets)` with `pid > 0` and `tickets > 0`
succeeds and persists the table in which the row of `pid` is replaced where it
stands when there is one and a new row is put at the end otherwise, all other
rows as they were; the new table loads back as such, has distinct pids and
exactly one row of `pid`, carrying `tickets`; its length is that of `rows`
when `pid` was present and one more otherwise. -/
theorem cmd_add_upsert (h : Host) (rows : List ticket_entry) (pid tickets : Int)
    (hload : focusctl.load_ticket_entries h 1024 = some rows)
    (hv : ∀ e ∈ rows, valid_entry e) (hlen : rows.length < 1024)
    (hnd : (rows.map (fun e => e.pid)).Nodup) (hnew : valid_entry ⟨pid, tickets⟩)
    (hdir : h.state_dir_ok = true) (hw : h.writable = true) :
    focusctl.cmd_add h pid tickets
      = (0, { h with procs :=
            ProcsFile.content (focusctl.write_rows (focusctl.spec_add rows pid tickets)) })
    ∧ focusctl.load_ticket_entries (focusctl.cmd_add h pid tickets).2 1024
        = some (focusctl.spec_add rows pid tickets)
    ∧ ((focusctl.spec_add rows pid tickets).map (fun e => e.pid)).Nodup
    ∧ (focusctl.spec_add rows pid tickets).filter (fun e => decide (e.pid = pid))
        = [⟨pid, tickets⟩]
    ∧ (focusctl.spec_add rows pid tickets).length
        = if pid ∈ rows.map (fun e => e.pid) then rows.length else rows.length + 1 := by
  have heq := cmd_add_eq h rows pid tickets hload hlen hnd hnew.2.2.1 hdir hw
  have hlen2 : (focusctl.spec_add rows pid tickets).length
      = if pid ∈ rows.map (fun e => e.pid) then rows.length else rows.length + 1 := by
    unfold focusctl.spec_add
    split <;> simp
  refine ⟨heq, ?_, ?_, spec_add_row rows pid tickets hnd, hlen2⟩
  · rw [heq]
    apply focusctl_load_rows _ 1024 _ rfl (spec_add_valid rows pid tickets hv hnew)
    rw [hlen2]
    split <;> omega
  · rw [spec_add_pids]
    split
    · exact hnd
    · rename_i hout
      rw [List.nodup_append]
      refine ⟨hnd, by simp, ?_⟩
      intro a ha hb
      simp only [List.mem_singleton] at hb
      subst hb
      exact hout ha

/-- Witness of C10: `cmd_add(200, 5)` on the table
`[(100,10),(200,30),(300,7)]`. -/
theorem cmd_add_upsert_witness :
    focusctl.load_ticket_entries (healthy_host "100 10\n200 30\n300 7\n".toList) 1024
      = some [⟨100, 10⟩, ⟨200, 30⟩, ⟨300, 7⟩] ∧
    focusctl.spec_add [⟨100, 10⟩, ⟨200, 30⟩, ⟨300, 7⟩] 200 5
      = [⟨100, 10⟩, ⟨200, 5⟩, ⟨300, 7⟩] ∧
    focusctl.load_ticket_entries
      (focusctl.cmd_add (healthy_host "100 10\n200 30\n300 7\n".toList) 200 5).2 1024
      = some (focusctl.spec_add [⟨100, 10⟩, ⟨200, 30⟩, ⟨300, 7⟩] 200 5) :=
  ⟨by decide, by decide,
   (cmd_add_upsert (healthy_host "100 10\n200 30\n300 7\n".toList)
      [⟨100, 10⟩, ⟨200, 30⟩, ⟨300, 7⟩] 200 5 (by decide) (by decide) (by decide) (by decide)
      (by decide) rfl rfl).2.1⟩

/-! ### What the writer of focusctl persists -/

theorem write_rows_eq_written (arr : List ticket_entry) :
    focusctl.write_rows arr
      = (focusctl.written_entries arr).flatMap focusctl.print_row := by
  induction arr with
  | nil => rfl
  | cons e rest ih =>
    simp only [focusctl.write_rows, focusctl.written_entries]
    split
    · exact ih
    · simp [List.flatMap_cons, focusctl.print_row, ih]

theorem written_entries_positive (arr : List ticket_entry) :
    ∀ e ∈ focusctl.written_entries arr, 0 < e.pid ∧ 0 < e.tickets := by
  induction arr with
  | nil => simp [focusctl.written_entries]
  | cons e rest ih =>
    simp only [focusctl.written_entries]
    split
    · exact ih
    · rename_i hc
      intro x hx
      rw [List.mem_cons] at hx
      rcases hx with hx | hx
      · subst hx
        constructor <;> omega
      · exact ih x hx

theorem written_entries_sublist (arr : List ticket_entry) :
    ∀ e ∈ focusctl.written_entries arr, e ∈ arr := by
  induction arr with
  | nil => simp [focusctl.written_entries]
  | cons e rest ih =>
    simp only [focusctl.written_entries]
    split
    · intro x hx
      exact List.mem_cons_of_mem _ (ih x hx)
    · intro x hx
      rw [List.mem_cons] at hx
      rcases hx with hx | hx
      · subst hx
        exact List.mem_cons_self _ _
      · exact List.mem_cons_of_mem _ (ih x hx)

theorem write_rows_written (arr : List ticket_entry) :
    focusctl.write_rows (focusctl.written_entries arr) = focusctl.write_rows arr := by
  induction arr with
  | nil => rfl
  | cons e rest ih =>
    simp only [focusctl.written_entries]
    by_cases hc : e.tickets ≤ 0 ∨ e.pid ≤ 0
    · rw [if_pos hc, ih]
      simp only [focusctl.write_rows]
      rw [if_pos hc]
    · rw [if_neg hc]
      simp only [focusctl.write_rows]
      rw [if_neg hc, if_neg hc, ih]

/-- Claim C11.  Whatever array `save_ticket_entries` is given, it either fails
and leaves the file as it was, or writes one row for each entry with `pid > 0`
and `tickets > 0`, in order, and for no other entry; read back by the daemon,
the file holds exactly those entries.  And `cmd_add` with `tickets <= 0`
returns `-1` and leaves the host, the ticket file included, as it was. -/
theorem save_persists_positive (h : Host) (arr : List ticket_entry) :
    (focusctl.save_ticket_entries h arr = (-1, h) ∨
      focusctl.save_ticket_entries h arr
        = (0, { h with procs :=
            ProcsFile.content ((focusctl.written_entries arr).flatMap focusctl.print_row) }))
    ∧ (∀ e ∈ focusctl.written_entries arr, e ∈ arr ∧ 0 < e.pid ∧ 0 < e.tickets)
    ∧ (table_ok arr → h.state_dir_ok = true → h.writable = true → (∀ n, h.alloc n = true) →
        focusd.load_ticket_entries (focusctl.save_ticket_entries h arr).2
          = some (focusctl.written_entries arr))
    ∧ (∀ pid tickets : Int, tickets ≤ 0 → focusctl.cmd_add h pid tickets = (-1, h)) := by
  refine ⟨?_, ?_, ?_, ?_⟩
  · unfold focusctl.save_ticket_entries
    by_cases hdir : h.state_dir_ok = true
    · by_cases hw : h.writable = true
      · right
        rw [hdir, hw, write_rows_eq_written]
        rfl
      · left
        simp only [Bool.not_eq_true] at hw
        rw [hdir, hw]
        rfl
    · left
      simp only [Bool.not_eq_true] at hdir
      rw [hdir]
      rfl
  · intro e he
    exact ⟨written_entries_sublist arr e he, written_entries_positive arr e he⟩
  · intro hok hdir hw halloc
    have hv : ∀ e ∈ focusctl.written_entries arr, valid_entry e := by
      intro e he
      have hp := written_entries_positive arr e he
      have hr := hok.2 e (written_entries_sublist arr e he)
      exact ⟨hp.1, hr.1.2, hp.2, hr.2.2⟩
    rw [save_ok h arr hdir hw]
    unfold focusd.load_ticket_entries
    simp only [hdir, Bool.not_true, Bool.false_eq_true, if_false, halloc]
    have hlen := write_rows_length _ hv
    rw [write_rows_written] at hlen
    have := focusd_scan_rows h.alloc halloc _ hv ((focusctl.write_rows arr).length + 1) [] 16 []
      (by simp) (by omega) (by omega)
    rw [write_rows_written] at this
    simp only [List.nil_append] at this
    rw [this]
  · intro pid tickets ht
    unfold focusctl.cmd_add
    rw [if_pos ht]

/-- Witness of C11: of the four entries given to the writer only `(100,10)`
and `(200,30)` reach the file, and `cmd_add(5, 0)` returns `-1` with the file
untouched. -/
theorem save_persists_positive_witness :
    focusctl.written_entries [⟨100, 10⟩, ⟨-3, 10⟩, ⟨7, 0⟩, ⟨200, 30⟩]
      = [⟨100, 10⟩, ⟨200, 30⟩] ∧
    focusd.load_ticket_entries
      (focusctl.save_ticket_entries (healthy_host [])
        [⟨100, 10⟩, ⟨-3, 10⟩, ⟨7, 0⟩, ⟨200, 30⟩]).2
      = some (focusctl.written_entries [⟨100, 10⟩, ⟨-3, 10⟩, ⟨7, 0⟩, ⟨200, 30⟩]) ∧
    (focusctl.cmd_add (healthy_host "100 10\n".toList) 5 0).1 = -1 ∧
    (focusctl.cmd_add (healthy_host "100 10\n".toList) 5 0).2.procs
      = ProcsFile.content "100 10\n".toList :=
  ⟨by decide,
   (save_persists_positive (healthy_host []) [⟨100, 10⟩, ⟨-3, 10⟩, ⟨7, 0⟩, ⟨200, 30⟩]).2.2.1
     (by decide) rfl rfl (fun _ => rfl),
   congrArg Prod.fst
     ((save_persists_positive (healthy_host "100 10\n".toList) []).2.2.2 5 0 (by decide)),
   congrArg (fun r : Int × Host => r.2.procs)
     ((save_persists_positive (healthy_host "100 10\n".toList) []).2.2.2 5 0 (by decide))⟩

/-! ### The order of the walk and the range of the draw -/

theorem pos_sum_take_mono (arr : List ticket_entry) (m n : Nat) (h : m ≤ n) :
    pos_sum (arr.take m) ≤ pos_sum (arr.take n) := by
  have e : arr.take m = (arr.take n).take m := by
    rw [List.take_take, Nat.min_eq_left h]
  rw [e]
  exact pos_sum_take_le _ m

/-- Claim C12.  For a table with positive total `T` and a draw `r` in `1..T`,
the walk of `pick_winner` stops at the smallest index `i` at which the sum of
the positive tickets of the entries `0..i` reaches `r`, and returns the pid at
that index; a draw equal to the cumulative sum at an entry with positive
tickets selects that entry, not the next one; and the result depends on the
order of the entries: the draw 10 selects pid 100 in `[(100,10),(200,30)]` and
pid 200 in `[(200,30),(100,10)]`. -/
theorem walk_first_reaching (arr : List ticket_entry) (hok : table_ok arr)
    (hT : 0 < sum_tickets arr 0) (r : Int) (h1 : 1 ≤ r) (h2 : r ≤ sum_tickets arr 0) :
    (∃ i, ∃ hi : i < arr.length, walk arr r 0 0 = some (i, arr[i].pid) ∧
        r ≤ pos_sum (arr.take (i + 1)) ∧ ∀ j, j < i → pos_sum (arr.take (j + 1)) < r)
    ∧ (∀ i, ∀ hi : i < arr.length, 0 < arr[i].tickets →
        walk arr (pos_sum (arr.take (i + 1))) 0 0 = some (i, arr[i].pid))
    ∧ (walk [⟨100, 10⟩, ⟨200, 30⟩] 10 0 0 = some (0, 100) ∧
        walk [⟨200, 30⟩, ⟨100, 10⟩] 10 0 0 = some (0, 200)) := by
  have hsum := sum_tickets_zero arr hok
  have hlt := pos_sum_lt_of_table_ok arr hok
  refine ⟨?_, ?_, by decide⟩
  · obtain ⟨j, p, hw⟩ := walk_stops arr r 0 0 (le_refl _) (by omega) (by omega) (by omega)
    have hw2 : walk arr r 0 0 = some (0 + j, p) := by simpa using hw
    obtain ⟨hj, hp, ht, hlo, hhi⟩ :=
      (walk_spec arr r 0 0 (le_refl _) (by omega) (by omega) j p).mp hw2
    have hsucc := pos_sum_take_succ arr j hj
    rw [max_eq_left (le_of_lt ht)] at hsucc
    refine ⟨j, hj, by rw [hw, hp], by omega, ?_⟩
    intro k hk
    have := pos_sum_take_mono arr (k + 1) j (by omega)
    omega
  · intro i hi ht
    have hsucc := pos_sum_take_succ arr i hi
    rw [max_eq_left (le_of_lt ht)] at hsucc
    have hnn := pos_sum_nonneg (arr.take i)
    have hw : walk arr (pos_sum (arr.take (i + 1))) 0 0 = some (0 + i, arr[i].pid) := by
      rw [walk_spec arr _ 0 0 (le_refl _) (by omega) (by omega) i]
      exact ⟨hi, rfl, ht, by omega, by omega⟩
    simpa using hw

/-- Witness of C12 on the table `[(100,10),(200,30)]` with the draw 11, the
first draw above the tickets of the first entry. -/
theorem walk_first_reaching_witness :
    table_ok [⟨100, 10⟩, ⟨200, 30⟩] ∧ 0 < sum_tickets [⟨100, 10⟩, ⟨200, 30⟩] 0 ∧
    walk [⟨100, 10⟩, ⟨200, 30⟩] 11 0 0 = some (1, 200) ∧
    ∃ i, ∃ hi : i < [(⟨100, 10⟩ : ticket_entry), ⟨200, 30⟩].length,
      walk [⟨100, 10⟩, ⟨200, 30⟩] 11 0 0 = some (i, [(⟨100, 10⟩ : ticket_entry), ⟨200, 30⟩][i].pid) ∧
      11 ≤ pos_sum ([(⟨100, 10⟩ : ticket_entry), ⟨200, 30⟩].take (i + 1)) ∧
      ∀ j, j < i → pos_sum ([(⟨100, 10⟩ : ticket_entry), ⟨200, 30⟩].take (j + 1)) < 11 :=
  ⟨by decide, by decide, by decide,
   (walk_first_reaching [⟨100, 10⟩, ⟨200, 30⟩] (by decide) (by decide) 11 (by decide)
      (by decide)).1⟩

/-- Claim C13.  For a table with positive total `T` and a non-negative value
`v` of `rand()`: the `long` total is the exact sum of the positive tickets (no
overflow, `long` being 64 bits wide), the draw `(v % T) + 1` lies in `1..T`,
and the walk returns from inside its loop with the value that `pick_winner`
returns, so the fallback `arr[count - 1].pid` is not reached. -/
theorem draw_in_range_walk_returns (arr : List ticket_entry) (v : Int) (hok : table_ok arr)
    (hT : 0 < sum_tickets arr 0) (hv : 0 ≤ v) :
    sum_tickets arr 0 = pos_sum arr
    ∧ pos_sum arr ≤ LONG_MAX
    ∧ draw v (sum_tickets arr 0) = v % sum_tickets arr 0 + 1
    ∧ 1 ≤ draw v (sum_tickets arr 0) ∧ draw v (sum_tickets arr 0) ≤ sum_tickets arr 0
    ∧ walk arr (draw v (sum_tickets arr 0)) 0 0 ≠ none
    ∧ ∃ i p, walk arr (draw v (sum_tickets arr 0)) 0 0 = some (i, p) ∧ pick_winner arr v = p := by
  have hsum := sum_tickets_zero arr hok
  have hlt := pos_sum_lt_of_table_ok arr hok
  have hd := draw_range v (sum_tickets arr 0) hv hT (by omega)
  obtain ⟨i, p, hw, hp⟩ := pick_winner_eq_walk arr v hok hT hv
  have hdraw : draw v (sum_tickets arr 0) = v % sum_tickets arr 0 + 1 := by
    unfold draw
    rw [Int.tmod_eq_emod hv (le_of_lt hT)]
    have h1 : 0 ≤ v % sum_tickets arr 0 := Int.emod_nonneg _ (by omega)
    have h2 : v % sum_tickets arr 0 < sum_tickets arr 0 := Int.emod_lt_of_pos _ hT
    rw [to_long_eq (v % sum_tickets arr 0) (by omega) (by omega),
      to_long_eq _ (by omega) (by omega)]
  refine ⟨hsum, ?_, hdraw, hd.1, hd.2, ?_, i, p, hw, hp⟩
  · unfold LONG_MAX
    omega
  · rw [hw]
    simp

/-- Witness of C13 on the table `[(100,10),(200,30)]` with the `rand()` value
2147483647: the draw is `2147483647 % 40 + 1 = 8`. -/
theorem draw_in_range_walk_returns_witness :
    table_ok [⟨100, 10⟩, ⟨200, 30⟩] ∧ 0 < sum_tickets [⟨100, 10⟩, ⟨200, 30⟩] 0 ∧
    (0 : Int) ≤ 2147483647 ∧
    draw 2147483647 (sum_tickets [⟨100, 10⟩, ⟨200, 30⟩] 0) = 8 ∧
    walk [⟨100, 10⟩, ⟨200, 30⟩] (draw 2147483647 (sum_tickets [⟨100, 10⟩, ⟨200, 30⟩] 0)) 0 0
      ≠ none :=
  ⟨by decide, by decide, by decide, by decide,
   (draw_in_range_walk_returns [⟨100, 10⟩, ⟨200, 30⟩] 2147483647 (by decide) (by decide)
      (by decide)).2.2.2.2.2.1⟩

/-! ### `pick_winner` on the tables that the daemon loads -/

theorem focusd_loaded_positive (h : Host) (arr : List ticket_entry)
    (hl : focusd.load_ticket_entries h = some arr) :
    ∀ e ∈ arr, 0 < e.pid ∧ 0 < e.tickets := by
  unfold focusd.load_ticket_entries at hl
  split at hl
  · simp at hl
  · split at hl
    · simp only [Option.some.injEq] at hl
      subst hl
      simp
    · simp at hl
    · split at hl
      · simp at hl
      · split at hl
        · rename_i out hs
          simp only [Option.some.injEq] at hl
          subst hl
          exact focusd_scan_loop_positive _ _ _ _ [] _ (by simp) hs
        · simp at hl
        · simp at hl

/-- At the one place where the daemon calls `pick_winner`, on the table that
its loader has returned, a positive total and a non-negative `rand()` value
give the pid of an entry of that table, which is positive: the round has a
winner. -/
theorem pick_winner_on_loaded_table (h : Host) (arr : List ticket_entry) (v : Int)
    (hl : focusd.load_ticket_entries h = some arr) (hok : table_ok arr)
    (hT : 0 < sum_tickets arr 0) (hv : 0 ≤ v) :
    (∃ e ∈ arr, pick_winner arr v = e.pid) ∧ pick_winner arr v ≠ -1 ∧
    0 < pick_winner arr v := by
  obtain ⟨j, p, hw, hp⟩ := pick_winner_eq_walk arr v hok hT hv
  obtain ⟨i, hi, _, h2, _⟩ := walk_some_mem _ _ _ _ _ _ hw
  have hmem : arr[i] ∈ arr := List.getElem_mem hi
  have hpos := (focusd_loaded_positive h arr hl arr[i] hmem).1
  refine ⟨⟨arr[i], hmem, by rw [hp, h2]⟩, ?_, ?_⟩
  · rw [hp, h2]
    omega
  · rw [hp, h2]
    exact hpos

/-- The table `[(-1, 5)]`, on which `pick_winner` would return the pid `-1` of
its entry, is not a table that the loader returns: the row `-1 5` is dropped. -/
theorem focusd_load_drops_minus_one :
    focusd.load_ticket_entries (healthy_host "-1 5\n".toList) = some [] := by
  decide

end FocusSched
